import Mathlib

/-
Verification development for the Smart-Expense application.

Modelling conventions, used throughout this file:

* A JavaScript `Date` that the source code has normalized to midnight
  (`setHours(0,0,0,0)`, or parsed from a date-only `YYYY-MM-DD` string) is,
  assuming a UTC runtime timezone, exactly a count of days since an epoch.
  We model such dates as `Int` day numbers counted from 0001-01-01 of the
  proleptic Gregorian calendar.  `civilOfDay` and `dayOfCivil` convert
  between day numbers and civil (year, month, day) triples, mirroring the
  normalization JavaScript `Date` performs in `setDate` / `setMonth` /
  `setFullYear`.  The source's `YYYY-MM-DD` strings are reproduced exactly
  by `isoOfDay`.
* JavaScript numbers are modelled as rationals, so arithmetic is exact.
* The `while` loop of `processRecurringTransactions` is modelled by a
  fuel-indexed recursion; the wrapper supplies fuel that provably suffices
  for every date reachable by the loop, so the model satisfies the loop's
  defining equation (see `materializeGo_eq_of_fuel`).
* `String.localeCompare` is modelled as lexicographic comparison of the
  strings (the order Lean's `String` order provides), which agrees with
  `localeCompare` on the ASCII identifiers the application generates.
-/

set_option maxRecDepth 4000
set_option linter.all false

/-! ## Calendar arithmetic (model of JavaScript `Date` at midnight UTC) -/

/-- Number of leap days contributed by year `y` (1 for a Gregorian leap
year, 0 otherwise). -/
def leapDays (y : Int) : Int :=
  if (y % 4 = 0 ∧ y % 100 ≠ 0) ∨ y % 400 = 0 then 1 else 0

/-- Length of civil year `y` in days. -/
def daysInYear (y : Int) : Int := 365 + leapDays y

/-- Day number (days since 0001-01-01) of the first day of year `y`,
for `y ≥ 1`. -/
def yearStart (y : Int) : Int :=
  365 * (y - 1) + (y - 1) / 4 - (y - 1) / 100 + (y - 1) / 400

/-- Days in the months strictly before month `m` (1-based) of a year whose
leap-day count is `L`. -/
def daysBeforeMonth (L : Int) (m : Int) : Int :=
  if m ≤ 1 then 0
  else if m = 2 then 31
  else if m = 3 then 59 + L
  else if m = 4 then 90 + L
  else if m = 5 then 120 + L
  else if m = 6 then 151 + L
  else if m = 7 then 181 + L
  else if m = 8 then 212 + L
  else if m = 9 then 243 + L
  else if m = 10 then 273 + L
  else if m = 11 then 304 + L
  else 334 + L

/-- Length of month `m` of year `y` in days. -/
def daysInMonth (y m : Int) : Int :=
  if m = 2 then 28 + leapDays y
  else if m = 4 ∨ m = 6 ∨ m = 9 ∨ m = 11 then 30
  else 31

/-- Day number of the civil date `y-m-d`.  The formula is linear in `d`,
so day-of-month overflow normalizes exactly the way a JavaScript `Date`
does (e.g. January 32nd is February 1st). -/
def dayOfCivil (y m d : Int) : Int :=
  yearStart y + daysBeforeMonth (leapDays y) m + (d - 1)

/-- Year search within a 400-year era: starting at year `y` with `rem`
days left, walk forward one year at a time.  Returns the year reached and
the remaining day-of-year offset. -/
def yearSearch : Nat → Int → Int → Int × Int
  | 0, y, rem => (y, rem)
  | fuel + 1, y, rem =>
      if rem < daysInYear y then (y, rem)
      else yearSearch fuel (y + 1) (rem - daysInYear y)

/-- Month and day-of-month from a day-of-year offset `doy` (0-based) in a
year with leap-day count `L`. -/
def monthOfDoy (L : Int) (doy : Int) : Int × Int :=
  if doy < 31 then (1, doy + 1)
  else if doy < 59 + L then (2, doy - 30)
  else if doy < 90 + L then (3, doy - 58 - L)
  else if doy < 120 + L then (4, doy - 89 - L)
  else if doy < 151 + L then (5, doy - 119 - L)
  else if doy < 181 + L then (6, doy - 150 - L)
  else if doy < 212 + L then (7, doy - 180 - L)
  else if doy < 243 + L then (8, doy - 211 - L)
  else if doy < 273 + L then (9, doy - 242 - L)
  else if doy < 304 + L then (10, doy - 272 - L)
  else if doy < 334 + L then (11, doy - 303 - L)
  else (12, doy - 333 - L)

/-- Civil (year, month, day) triple of a day number `z ≥ 0`. -/
def civilOfDay (z : Int) : Int × Int × Int :=
  let era := z / 146097
  let rem := z % 146097
  let yd := yearSearch 400 (400 * era + 1) rem
  let md := monthOfDoy (leapDays yd.1) yd.2
  (yd.1, md.1, md.2)

/-- Model of `addDays` from `App.tsx` (`setDate(getDate() + days)`). -/
def addDaysZ (z days : Int) : Int := z + days

/-- Model of `addMonths` from `App.tsx` (`setMonth(getMonth() + months)`):
the month index is renormalized and any day-of-month overflow carries into
the following month, exactly as JavaScript's `Date` does. -/
def addMonthsZ (z months : Int) : Int :=
  let c := civilOfDay z
  let ym := 12 * c.1 + (c.2.1 - 1) + months
  dayOfCivil (ym / 12) (ym % 12 + 1) c.2.2

/-- Model of `addYears` from `App.tsx` (`setFullYear(getFullYear() + years)`). -/
def addYearsZ (z years : Int) : Int :=
  let c := civilOfDay z
  dayOfCivil (c.1 + years) c.2.1 c.2.2

def digitChar (n : Int) : Char := Char.ofNat (48 + n.toNat)

def pad4 (n : Int) : List Char :=
  [digitChar (n / 1000 % 10), digitChar (n / 100 % 10), digitChar (n / 10 % 10),
    digitChar (n % 10)]

def pad2 (n : Int) : List Char := [digitChar (n / 10 % 10), digitChar (n % 10)]

/-- Model of `date.toISOString().split('T')[0]` for a midnight-UTC date
with year in `[0, 9999]`: the `YYYY-MM-DD` string. -/
def isoOfDay (z : Int) : String :=
  String.mk (pad4 (civilOfDay z).1 ++
    ('-' :: (pad2 (civilOfDay z).2.1 ++ ('-' :: pad2 (civilOfDay z).2.2))))

inductive TxType
  | income
  | expense
deriving DecidableEq

structure Transaction where
  id : String
  description : String
  amount : ℚ
  type : TxType
  date : Int
  category : String
  notes : Option String
  currencyCode : String
deriving DecidableEq

structure RecurringTransaction where
  id : String
  description : String
  amount : ℚ
  type : TxType
  category : String
  frequency : String
  startDate : Int
  nextOccurrenceDate : Int
  notes : Option String
  currencyCode : String
deriving DecidableEq

structure Budget where
  category : String
  amount : ℚ
deriving DecidableEq

structure CategoryBreakdown where
  category : String
  amount : ℚ
deriving DecidableEq

structure SummaryData where
  totalIncome : ℚ
  totalExpense : ℚ
  netSavings : ℚ
  categoryBreakdown : List CategoryBreakdown
deriving DecidableEq

/-! ## Recurrence materializer (`processRecurringTransactions` in `App.tsx`) -/

/-- One step of the `switch (rt.frequency)`: daily +1 day, weekly +7 days,
monthly +1 month, yearly +1 year, and the `default` branch falls back to
+1 day. -/
def stepDate (frequency : String) (z : Int) : Int :=
  if frequency = "daily" then addDaysZ z 1
  else if frequency = "weekly" then addDaysZ z 7
  else if frequency = "monthly" then addMonthsZ z 1
  else if frequency = "yearly" then addYearsZ z 1
  else addDaysZ z 1

/-- The transaction pushed for one occurrence of a rule: the deterministic
id is the rule id, a dash, and the ISO date; descriptive fields are copied
from the rule. -/
def mkOccTx (rt : RecurringTransaction) (z : Int) : Transaction :=
  { id := rt.id ++ "-" ++ isoOfDay z
    description := rt.description
    amount := rt.amount
    type := rt.type
    date := z
    category := rt.category
    notes := rt.notes
    currencyCode := rt.currencyCode }

/-- Fuel-indexed model of the catch-up `while` loop for one rule: while the
occurrence date is `≤ today`, push a transaction (unless its derived id is
already among `currentTransactions`) and advance by one frequency step.
Returns the emitted transactions and the final advanced date. -/
def materializeGo (rt : RecurringTransaction) (currentTransactions : List Transaction)
    (today : Int) : Nat → Int → List Transaction × Int
  | 0, cur => ([], cur)
  | fuel + 1, cur =>
      if cur ≤ today then
        let newTxId := rt.id ++ "-" ++ isoOfDay cur
        let rest := materializeGo rt currentTransactions today fuel (stepDate rt.frequency cur)
        ((if currentTransactions.any (fun tx => tx.id = newTxId) then rest.1
          else mkOccTx rt cur :: rest.1), rest.2)
      else ([], cur)

/-- The loop for one rule, with fuel sufficient for every step reachable
from the rule's next-occurrence date (each step advances by at least one
day, so `today + 1 - start` iterations always suffice). -/
def materializeRule (rt : RecurringTransaction) (currentTransactions : List Transaction)
    (today : Int) : List Transaction × Int :=
  materializeGo rt currentTransactions today
    (today + 1 - rt.nextOccurrenceDate).toNat rt.nextOccurrenceDate

/-- Model of `processRecurringTransactions`: maps over the rules,
collecting all emitted transactions (deduplicated only against
`currentTransactions`, exactly as the source checks), the updated rules
with advanced next-occurrence dates, and the changed flag. -/
def processRecurringTransactions (rts : List RecurringTransaction)
    (currentTransactions : List Transaction) (today : Int) :
    List Transaction × List RecurringTransaction × Bool :=
  ((rts.map (fun rt => (materializeRule rt currentTransactions today).1)).join,
    rts.map (fun rt =>
      { rt with nextOccurrenceDate := (materializeRule rt currentTransactions today).2 }),
    rts.any (fun rt => rt.nextOccurrenceDate ≤ today))

/-- Comparator of the merge effect's `sort`: ascending date, ties broken
by `localeCompare` on ids (modelled as lexicographic string order). -/
def mergeLe (a b : Transaction) : Bool :=
  decide (a.date < b.date ∨ (a.date = b.date ∧ a.id ≤ b.id))

/-- Model of the merge in the `useEffect` at `App.tsx` lines 200-221:
drop generated transactions whose id already occurs in the previous list,
append, and sort by date with id tie-break. -/
def mergeNewTransactions (prevTxs newTxs : List Transaction) : List Transaction :=
  let uniqueNewTransactions :=
    newTxs.filter (fun newTx => ! prevTxs.any (fun prevTx => prevTx.id = newTx.id))
  (prevTxs ++ uniqueNewTransactions).mergeSort mergeLe

/-! ## Summary evaluator (`SummaryDashboard.tsx`) -/

/-- JavaScript `Map.get(k)`, defaulting to 0 as the source's `|| 0` does. -/
def mapGetD (mp : List (String × ℚ)) (k : String) : ℚ :=
  match mp.find? (fun p => p.1 = k) with
  | some p => p.2
  | none => 0

/-- JavaScript `Map.set(k, v)`: update in place if the key is present,
otherwise append (preserving first-insertion order). -/
def mapSet (mp : List (String × ℚ)) (k : String) (v : ℚ) : List (String × ℚ) :=
  match mp with
  | [] => [(k, v)]
  | (k', v') :: rest => if k' = k then (k, v) :: rest else (k', v') :: mapSet rest k v

/-- The body of the `forEach` in `calculateSummary`: add the amount to the
income or expense total according to the type, and into the category
bucket either way. -/
def summarizeStep (acc : ℚ × ℚ × List (String × ℚ)) (tx : Transaction) :
    ℚ × ℚ × List (String × ℚ) :=
  (if tx.type = TxType.income then acc.1 + tx.amount else acc.1,
    if tx.type = TxType.income then acc.2.1 else acc.2.1 + tx.amount,
    mapSet acc.2.2 tx.category (mapGetD acc.2.2 tx.category + tx.amount))

/-- Model of `calculateSummary`: filter to the requested currency, sum
income and expense separately, and accumulate every transaction's amount
into its category bucket regardless of type. -/
def calculateSummary (txs : List Transaction) (currencyCode : String) : SummaryData :=
  let relevantTxs := txs.filter (fun tx => tx.currencyCode = currencyCode)
  let acc := relevantTxs.foldl summarizeStep (0, 0, [])
  { totalIncome := acc.1
    totalExpense := acc.2.1
    netSavings := acc.1 - acc.2.1
    categoryBreakdown := acc.2.2.map (fun p => { category := p.1, amount := p.2 }) }

inductive Period
  | daily
  | weekly
  | monthly
deriving DecidableEq

/-- JavaScript `getDay()` for a midnight date: 0 = Sunday.  Day number 0
(0001-01-01) was a Monday. -/
def dayOfWeekZ (z : Int) : Int := (z + 1) % 7

/-- Model of `getPeriodTransactions`: `now` is the current instant's day.
Daily keeps transactions whose date string equals today's; weekly keeps
those on or after the most recent Sunday (`now - getDay()` normalized to
midnight); monthly keeps those on or after the first of the current
month. -/
def getPeriodTransactions (transactions : List Transaction) (period : Period)
    (now : Int) : List Transaction :=
  let today := now
  let startOfWeek := now - dayOfWeekZ now
  let startOfMonth := dayOfCivil (civilOfDay now).1 (civilOfDay now).2.1 1
  transactions.filter (fun tx =>
    match period with
    | Period.daily => tx.date = today
    | Period.weekly => startOfWeek ≤ tx.date
    | Period.monthly => startOfMonth ≤ tx.date)

structure BudgetAlert where
  category : String
  spent : ℚ
  budget : ℚ
  percentage : ℚ
deriving DecidableEq

/-- Model of `getBudgetAlerts`: for each budget, sum the matching
category's entries of the (already filtered) breakdown, compute
`spent / amount * 100`, and alert when the amount is positive and the
percentage reaches the threshold.  (In ℚ a division by zero is 0; the
source instead produces `NaN`/`Infinity`, but the guard `amount > 0`
discards that case in both.) -/
def getBudgetAlerts (currentSummary : SummaryData) (currentBudgets : List Budget)
    (budgetAlertPercentage : ℚ) : List BudgetAlert :=
  currentBudgets.filterMap (fun budget =>
    let spent := ((currentSummary.categoryBreakdown.filter
      (fun cb => cb.category = budget.category)).map (fun cb => cb.amount)).sum
    let percentage := spent / budget.amount * 100
    if 0 < budget.amount ∧ budgetAlertPercentage ≤ percentage then
      some { category := budget.category, spent := spent, budget := budget.amount,
             percentage := percentage }
    else none)

/-! ## Currency converter (`CurrencyConverter.tsx`) -/

/-- Modelled from the spec: the static table `hardcodedExchangeRates`
lives in `constants.ts`, which is not among the provided sources.  The
spec fixes USD = 1 and EUR = 0.9 relative to the implicit base unit. -/
def hardcodedExchangeRates : List (String × ℚ) := [("USD", 1), ("EUR", 9 / 10)]

def lookupRate (code : String) : Option ℚ :=
  (hardcodedExchangeRates.find? (fun p => p.1 = code)).map Prod.snd

/-- Model of `handleConvert`: reject non-positive amounts, return the
amount unchanged when both codes coincide, otherwise look up both rates
and convert by `amount / fromRate * toRate`. -/
def handleConvert (fromAmount : ℚ) (fromCurrency toCurrency : String) : Except String ℚ :=
  if fromAmount ≤ 0 then Except.error "Please enter a positive amount to convert."
  else if fromCurrency = toCurrency then Except.ok fromAmount
  else
    match lookupRate fromCurrency, lookupRate toCurrency with
    | some fromRate, some toRate => Except.ok (fromAmount / fromRate * toRate)
    | _, _ => Except.error "Conversion rate not available."

/-! ## Gemini service (`geminiService.ts`), with the external call as an
oracle parameter -/

/-- Model of `categorizeTransaction`: `apiKeyPresent` is whether
`process.env.API_KEY` is set (otherwise `getGeminiClient` throws inside
the `try`); `respond` is the external call combined with JSON parsing —
`Except.error` for any thrown failure, otherwise the optional `category`
field of the parsed response.  The `catch` maps every failure to
`'Others'`, and `result.category || 'Others'` maps a missing or empty
category to `'Others'`. -/

def categorizeTransaction (apiKeyPresent : Bool)
    (respond : Except Unit (Option String)) : String :=
  if !apiKeyPresent then "Others"
  else
    match respond with
    | Except.error _ => "Others"
    | Except.ok none => "Others"
    | Except.ok (some c) => if c = "" then "Others" else c

/-- Model of `getSpendingInsights`: any failure (missing key or thrown
call) is caught and mapped to the fixed fallback message; a successful
call returns the response text. -/
def getSpendingInsights (apiKeyPresent : Bool)
    (respond : Except Unit String) : String :=
  if !apiKeyPresent then
    "Could not retrieve spending insights at this time. Please try again later."
  else
    match respond with
    | Except.error _ =>
        "Could not retrieve spending insights at this time. Please try again later."
    | Except.ok text => text

/-- The occurrence dates visited by the materializer loop (same
recursion skeleton as `materializeGo`). -/
def occDates (frequency : String) (today : Int) : Nat → Int → List Int
  | 0, _ => []
  | fuel + 1, cur =>
      if cur ≤ today then cur :: occDates frequency today fuel (stepDate frequency cur)
      else []

/-- The final advanced date of the materializer loop (same recursion
skeleton as `materializeGo`). -/
def finalDate (frequency : String) (today : Int) : Nat → Int → Int
  | 0, cur => cur
  | fuel + 1, cur =>
      if cur ≤ today then finalDate frequency today fuel (stepDate frequency cur)
      else cur

/-- Iterated frequency step. -/
def stepIter (frequency : String) (cur : Int) : Nat → Int
  | 0 => cur
  | k + 1 => stepDate frequency (stepIter frequency cur k)

/-- Concrete rule used by claim witnesses. -/
def sampleMonthlyRule : RecurringTransaction :=
  { id := "r1", description := "Rent", amount := 50, type := TxType.expense,
    category := "Housing", frequency := "monthly",
    startDate := dayOfCivil 2024 1 1, nextOccurrenceDate := dayOfCivil 2024 1 1,
    notes := none, currencyCode := "USD" }

/-- A sequence of materialization cycles for a single rule: each cycle
sees some current transaction list and a `today`, materializes, and
writes the advanced next-occurrence date back onto the rule.  Returns the
final rule and all transactions materialized along the way. -/
def runRuleCycles (rt : RecurringTransaction) :
    List (Int × List Transaction) → RecurringTransaction × List Transaction
  | [] => (rt, [])
  | (today, ex) :: rest =>
      let r := materializeRule rt ex today
      let next := runRuleCycles { rt with nextOccurrenceDate := r.2 } rest
      (next.1, r.1 ++ next.2)

/-- Concrete transactions used by claim witnesses. -/
def sampleTxA : Transaction :=
  { id := "a", description := "p", amount := 1, type := TxType.income,
    date := 1, category := "c", notes := none, currencyCode := "USD" }

/-- Concrete transactions used by claim witnesses. -/
def sampleTxB : Transaction :=
  { id := "b", description := "q", amount := 2, type := TxType.expense,
    date := 0, category := "c", notes := none, currencyCode := "USD" }

/-! ## Lemmas and claim theorems -/

/-- Successive year starts differ by the length of the year. -/
theorem yearStart_succ (y : Int) :
    yearStart (y + 1) = yearStart y + daysInYear y := by
  unfold yearStart daysInYear leapDays
  split <;> omega

/-- A 400-year era spans exactly 146097 days. -/
theorem yearStart_era (e : Int) :
    yearStart (400 * e + 1) = 146097 * e := by
  unfold yearStart
  omega

theorem daysInYear_bounds (y : Int) : 365 ≤ daysInYear y ∧ daysInYear y ≤ 366 := by
  unfold daysInYear leapDays
  split <;> omega

/-- Specification of the in-era year search. -/
theorem yearSearch_spec (fuel : Nat) (y rem : Int) (h0 : 0 ≤ rem)
    (hfu : rem < yearStart (y + fuel) - yearStart y) :
    y ≤ (yearSearch fuel y rem).1 ∧ 0 ≤ (yearSearch fuel y rem).2 ∧
      (yearSearch fuel y rem).2 < daysInYear (yearSearch fuel y rem).1 ∧
      yearStart (yearSearch fuel y rem).1 + (yearSearch fuel y rem).2 = yearStart y + rem := by
  induction fuel generalizing y rem with
  | zero =>
      exfalso
      simp only [Nat.cast_zero, add_zero] at hfu
      omega
  | succ n ih =>
      simp only [yearSearch]
      split_ifs with hlt
      · exact ⟨le_refl y, h0, hlt, rfl⟩
      · have hys : yearStart (y + 1) = yearStart y + daysInYear y := yearStart_succ y
        have h0' : 0 ≤ rem - daysInYear y := by omega
        have hfu' : rem - daysInYear y < yearStart (y + 1 + n) - yearStart (y + 1) := by
          have hc : (y + ((n + 1 : Nat) : Int)) = y + 1 + (n : Int) := by push_cast; ring
          rw [hc] at hfu
          omega
        obtain ⟨i1, i2, i3, i4⟩ := ih (y + 1) (rem - daysInYear y) h0' hfu'
        exact ⟨by omega, i2, i3, by omega⟩

theorem dbm1 (L : Int) : daysBeforeMonth L 1 = 0 := rfl

theorem dbm2 (L : Int) : daysBeforeMonth L 2 = 31 := rfl

theorem dbm3 (L : Int) : daysBeforeMonth L 3 = 59 + L := rfl

theorem dbm4 (L : Int) : daysBeforeMonth L 4 = 90 + L := rfl

theorem dbm5 (L : Int) : daysBeforeMonth L 5 = 120 + L := rfl

theorem dbm6 (L : Int) : daysBeforeMonth L 6 = 151 + L := rfl

theorem dbm7 (L : Int) : daysBeforeMonth L 7 = 181 + L := rfl

theorem dbm8 (L : Int) : daysBeforeMonth L 8 = 212 + L := rfl

theorem dbm9 (L : Int) : daysBeforeMonth L 9 = 243 + L := rfl

theorem dbm10 (L : Int) : daysBeforeMonth L 10 = 273 + L := rfl

theorem dbm11 (L : Int) : daysBeforeMonth L 11 = 304 + L := rfl

theorem dbm12 (L : Int) : daysBeforeMonth L 12 = 334 + L := rfl

theorem monthOfDoy_aux (L doy m d : Int) (hL0 : 0 ≤ L) (hL1 : L ≤ 1)
    (h0 : 0 ≤ doy) (h1 : doy < 365 + L) (hmd : monthOfDoy L doy = (m, d)) :
    1 ≤ m ∧ m ≤ 12 ∧ 1 ≤ d ∧ d ≤ 31 ∧ daysBeforeMonth L m + (d - 1) = doy ∧
      daysBeforeMonth L m + d ≤ 365 + L ∧
      (m ≤ 11 → daysBeforeMonth L m + d ≤ daysBeforeMonth L (m + 1)) := by
  rw [monthOfDoy] at hmd
  by_cases hc1 : doy < 31
  · rw [if_pos hc1] at hmd; injection hmd with e1 e2; subst e1; subst e2
    have hb := dbm1 L
    have hnx : daysBeforeMonth L (1 + 1) = 31 := by norm_num [dbm2]
    omega
  rw [if_neg hc1] at hmd
  by_cases hc2 : doy < 59 + L
  · rw [if_pos hc2] at hmd; injection hmd with e1 e2; subst e1; subst e2
    have hb := dbm2 L
    have hnx : daysBeforeMonth L (2 + 1) = 59 + L := by norm_num [dbm3]
    omega
  rw [if_neg hc2] at hmd
  by_cases hc3 : doy < 90 + L
  · rw [if_pos hc3] at hmd; injection hmd with e1 e2; subst e1; subst e2
    have hb := dbm3 L
    have hnx : daysBeforeMonth L (3 + 1) = 90 + L := by norm_num [dbm4]
    omega
  rw [if_neg hc3] at hmd
  by_cases hc4 : doy < 120 + L
  · rw [if_pos hc4] at hmd; injection hmd with e1 e2; subst e1; subst e2
    have hb := dbm4 L
    have hnx : daysBeforeMonth L (4 + 1) = 120 + L := by norm_num [dbm5]
    omega
  rw [if_neg hc4] at hmd
  by_cases hc5 : doy < 151 + L
  · rw [if_pos hc5] at hmd; injection hmd with e1 e2; subst e1; subst e2
    have hb := dbm5 L
    have hnx : daysBeforeMonth L (5 + 1) = 151 + L := by norm_num [dbm6]
    omega
  rw [if_neg hc5] at hmd
  by_cases hc6 : doy < 181 + L
  · rw [if_pos hc6] at hmd; injection hmd with e1 e2; subst e1; subst e2
    have hb := dbm6 L
    have hnx : daysBeforeMonth L (6 + 1) = 181 + L := by norm_num [dbm7]
    omega
  rw [if_neg hc6] at hmd
  by_cases hc7 : doy < 212 + L
  · rw [if_pos hc7] at hmd; injection hmd with e1 e2; subst e1; subst e2
    have hb := dbm7 L
    have hnx : daysBeforeMonth L (7 + 1) = 212 + L := by norm_num [dbm8]
    omega
  rw [if_neg hc7] at hmd
  by_cases hc8 : doy < 243 + L
  · rw [if_pos hc8] at hmd; injection hmd with e1 e2; subst e1; subst e2
    have hb := dbm8 L
    have hnx : daysBeforeMonth L (8 + 1) = 243 + L := by norm_num [dbm9]
    omega
  rw [if_neg hc8] at hmd
  by_cases hc9 : doy < 273 + L
  · rw [if_pos hc9] at hmd; injection hmd with e1 e2; subst e1; subst e2
    have hb := dbm9 L
    have hnx : daysBeforeMonth L (9 + 1) = 273 + L := by norm_num [dbm10]
    omega
  rw [if_neg hc9] at hmd
  by_cases hc10 : doy < 304 + L
  · rw [if_pos hc10] at hmd; injection hmd with e1 e2; subst e1; subst e2
    have hb := dbm10 L
    have hnx : daysBeforeMonth L (10 + 1) = 304 + L := by norm_num [dbm11]
    omega
  rw [if_neg hc10] at hmd
  by_cases hc11 : doy < 334 + L
  · rw [if_pos hc11] at hmd; injection hmd with e1 e2; subst e1; subst e2
    have hb := dbm11 L
    have hnx : daysBeforeMonth L (11 + 1) = 334 + L := by norm_num [dbm12]
    omega
  rw [if_neg hc11] at hmd
  injection hmd with e1 e2; subst e1; subst e2
  have hb := dbm12 L
  omega

/-- Specification of the month/day extraction. -/
theorem monthOfDoy_spec (L doy : Int) (hL0 : 0 ≤ L) (hL1 : L ≤ 1)
    (h0 : 0 ≤ doy) (h1 : doy < 365 + L) :
    1 ≤ (monthOfDoy L doy).1 ∧ (monthOfDoy L doy).1 ≤ 12 ∧
      1 ≤ (monthOfDoy L doy).2 ∧ (monthOfDoy L doy).2 ≤ 31 ∧
      daysBeforeMonth L (monthOfDoy L doy).1 + ((monthOfDoy L doy).2 - 1) = doy ∧
      daysBeforeMonth L (monthOfDoy L doy).1 + (monthOfDoy L doy).2 ≤ 365 + L ∧
      ((monthOfDoy L doy).1 ≤ 11 →
        daysBeforeMonth L (monthOfDoy L doy).1 + (monthOfDoy L doy).2 ≤
          daysBeforeMonth L ((monthOfDoy L doy).1 + 1)) :=
  monthOfDoy_aux L doy (monthOfDoy L doy).1 (monthOfDoy L doy).2 hL0 hL1 h0 h1 rfl

theorem leapDays_bounds (y : Int) : 0 ≤ leapDays y ∧ leapDays y ≤ 1 := by
  unfold leapDays; split <;> omega

/-- Core specification of `civilOfDay` on nonnegative day numbers:
converting back with `dayOfCivil` is the identity and all components lie
in valid calendar ranges. -/
theorem civilOfDay_spec (z : Int) (hz : 0 ≤ z) :
    dayOfCivil (civilOfDay z).1 (civilOfDay z).2.1 (civilOfDay z).2.2 = z ∧
      1 ≤ (civilOfDay z).1 ∧ 1 ≤ (civilOfDay z).2.1 ∧ (civilOfDay z).2.1 ≤ 12 ∧
      1 ≤ (civilOfDay z).2.2 ∧ (civilOfDay z).2.2 ≤ 31 ∧
      daysBeforeMonth (leapDays (civilOfDay z).1) (civilOfDay z).2.1 + (civilOfDay z).2.2 ≤
        365 + leapDays (civilOfDay z).1 ∧
      ((civilOfDay z).2.1 ≤ 11 →
        daysBeforeMonth (leapDays (civilOfDay z).1) (civilOfDay z).2.1 + (civilOfDay z).2.2 ≤
          daysBeforeMonth (leapDays (civilOfDay z).1) ((civilOfDay z).2.1 + 1)) := by
  have hera : 0 ≤ z / 146097 := Int.ediv_nonneg hz (by norm_num)
  have hrem0 : 0 ≤ z % 146097 := Int.emod_nonneg z (by norm_num)
  have hrem1 : z % 146097 < 146097 := Int.emod_lt_of_pos z (by norm_num)
  have hspan : z % 146097 <
      yearStart (400 * (z / 146097) + 1 + ((400 : Nat) : Int)) -
        yearStart (400 * (z / 146097) + 1) := by
    have hc : (400 * (z / 146097) + 1 + ((400 : Nat) : Int)) = 400 * (z / 146097 + 1) + 1 := by
      push_cast; ring
    rw [hc, yearStart_era (z / 146097 + 1), yearStart_era (z / 146097)]
    omega
  obtain ⟨hj1, hd0, hd1, hsum⟩ :=
    yearSearch_spec 400 (400 * (z / 146097) + 1) (z % 146097) hrem0 hspan
  have hLrange := leapDays_bounds (yearSearch 400 (400 * (z / 146097) + 1) (z % 146097)).1
  have hdy : daysInYear (yearSearch 400 (400 * (z / 146097) + 1) (z % 146097)).1 =
      365 + leapDays (yearSearch 400 (400 * (z / 146097) + 1) (z % 146097)).1 := rfl
  obtain ⟨hm1, hm2, hdd1, hdd2, hrec, hup, hnext⟩ :=
    monthOfDoy_spec (leapDays (yearSearch 400 (400 * (z / 146097) + 1) (z % 146097)).1)
      (yearSearch 400 (400 * (z / 146097) + 1) (z % 146097)).2
      hLrange.1 hLrange.2 hd0 (by omega)
  have hb : yearStart (400 * (z / 146097) + 1) = 146097 * (z / 146097) :=
    yearStart_era (z / 146097)
  have hgoal : civilOfDay z =
      ((yearSearch 400 (400 * (z / 146097) + 1) (z % 146097)).1,
        (monthOfDoy (leapDays (yearSearch 400 (400 * (z / 146097) + 1) (z % 146097)).1)
          (yearSearch 400 (400 * (z / 146097) + 1) (z % 146097)).2).1,
        (monthOfDoy (leapDays (yearSearch 400 (400 * (z / 146097) + 1) (z % 146097)).1)
          (yearSearch 400 (400 * (z / 146097) + 1) (z % 146097)).2).2) := rfl
  rw [hgoal]
  dsimp only
  refine ⟨?_, by omega, hm1, hm2, hdd1, hdd2, hup, hnext⟩
  unfold dayOfCivil
  omega

/-! ## JavaScript date mutators (`addDays`, `addMonths`, `addYears` from
`App.tsx`), acting on day numbers -/

theorem daysBeforeMonth_mono_step (L m : Int) (hL : 0 ≤ L) (hL1 : L ≤ 1)
    (h1 : 1 ≤ m) (h2 : m ≤ 11) :
    daysBeforeMonth L m + 28 ≤ daysBeforeMonth L (m + 1) ∧
      daysBeforeMonth L (m + 1) ≤ daysBeforeMonth L m + 31 := by
  interval_cases m <;>
    (try norm_num only) <;>
    simp only [dbm1, dbm2, dbm3, dbm4, dbm5, dbm6, dbm7, dbm8, dbm9, dbm10, dbm11, dbm12] <;>
    omega

theorem daysBeforeMonth_bounds (L m : Int) (hL : 0 ≤ L) (h1 : 1 ≤ m) (h2 : m ≤ 12) :
    0 ≤ daysBeforeMonth L m ∧ daysBeforeMonth L m ≤ 334 + L := by
  interval_cases m <;>
    simp only [dbm1, dbm2, dbm3, dbm4, dbm5, dbm6, dbm7, dbm8, dbm9, dbm10, dbm11, dbm12] <;>
    omega

theorem daysBeforeMonth_L_diff (L1 L2 m : Int) (h1 : 1 ≤ m) (h2 : m ≤ 12) :
    daysBeforeMonth L1 m - daysBeforeMonth L2 m = 0 ∨
      daysBeforeMonth L1 m - daysBeforeMonth L2 m = L1 - L2 := by
  interval_cases m <;>
    simp only [dbm1, dbm2, dbm3, dbm4, dbm5, dbm6, dbm7, dbm8, dbm9, dbm10, dbm11, dbm12] <;>
    omega

/-- Adding one month strictly advances the day number (by at most 62 days). -/
theorem addMonthsZ_one_lt (z : Int) (hz : 0 ≤ z) :
    z < addMonthsZ z 1 ∧ addMonthsZ z 1 ≤ z + 62 := by
  obtain ⟨hrt, hy1, hm1, hm2, hd1, hd2, hup, hnext⟩ := civilOfDay_spec z hz
  have hrt2 : yearStart (civilOfDay z).1 +
      daysBeforeMonth (leapDays (civilOfDay z).1) (civilOfDay z).2.1 +
      ((civilOfDay z).2.2 - 1) = z := hrt
  have hL := leapDays_bounds (civilOfDay z).1
  have hbm := daysBeforeMonth_bounds (leapDays (civilOfDay z).1) (civilOfDay z).2.1 hL.1 hm1 hm2
  have hae : addMonthsZ z 1 =
      dayOfCivil ((12 * (civilOfDay z).1 + ((civilOfDay z).2.1 - 1) + 1) / 12)
        ((12 * (civilOfDay z).1 + ((civilOfDay z).2.1 - 1) + 1) % 12 + 1)
        (civilOfDay z).2.2 := rfl
  by_cases hcase : (civilOfDay z).2.1 ≤ 11
  · have hdiv1 : (12 * (civilOfDay z).1 + ((civilOfDay z).2.1 - 1) + 1) / 12 =
        (civilOfDay z).1 := by omega
    have hdiv2 : (12 * (civilOfDay z).1 + ((civilOfDay z).2.1 - 1) + 1) % 12 + 1 =
        (civilOfDay z).2.1 + 1 := by omega
    rw [hdiv1, hdiv2] at hae
    have hval : addMonthsZ z 1 = yearStart (civilOfDay z).1 +
        daysBeforeMonth (leapDays (civilOfDay z).1) ((civilOfDay z).2.1 + 1) +
        ((civilOfDay z).2.2 - 1) := hae
    have hstep := daysBeforeMonth_mono_step (leapDays (civilOfDay z).1) (civilOfDay z).2.1
      hL.1 hL.2 hm1 hcase
    have hbm2 := daysBeforeMonth_bounds (leapDays (civilOfDay z).1) ((civilOfDay z).2.1 + 1)
      hL.1 (by omega) (by omega)
    omega
  · have hdiv1 : (12 * (civilOfDay z).1 + ((civilOfDay z).2.1 - 1) + 1) / 12 =
        (civilOfDay z).1 + 1 := by omega
    have hdiv2 : (12 * (civilOfDay z).1 + ((civilOfDay z).2.1 - 1) + 1) % 12 + 1 = 1 := by
      omega
    rw [hdiv1, hdiv2] at hae
    have hval : addMonthsZ z 1 = yearStart ((civilOfDay z).1 + 1) +
        daysBeforeMonth (leapDays ((civilOfDay z).1 + 1)) 1 +
        ((civilOfDay z).2.2 - 1) := hae
    have hys := yearStart_succ (civilOfDay z).1
    have hdy := daysInYear_bounds (civilOfDay z).1
    have e12 := dbm12 (leapDays (civilOfDay z).1)
    have e1 := dbm1 (leapDays ((civilOfDay z).1 + 1))
    have hm12 : (civilOfDay z).2.1 = 12 := by omega
    rw [hm12] at hrt2
    omega

/-- Adding one year strictly advances the day number (by at most 366 days). -/
theorem addYearsZ_one_lt (z : Int) (hz : 0 ≤ z) :
    z < addYearsZ z 1 ∧ addYearsZ z 1 ≤ z + 366 := by
  obtain ⟨hrt, hy1, hm1, hm2, hd1, hd2, hup, hnext⟩ := civilOfDay_spec z hz
  have hrt2 : yearStart (civilOfDay z).1 +
      daysBeforeMonth (leapDays (civilOfDay z).1) (civilOfDay z).2.1 +
      ((civilOfDay z).2.2 - 1) = z := hrt
  have hL := leapDays_bounds (civilOfDay z).1
  have hL' := leapDays_bounds ((civilOfDay z).1 + 1)
  have hys := yearStart_succ (civilOfDay z).1
  have hdy := daysInYear_bounds (civilOfDay z).1
  have hdiff := daysBeforeMonth_L_diff (leapDays ((civilOfDay z).1 + 1))
    (leapDays (civilOfDay z).1) (civilOfDay z).2.1 hm1 hm2
  have hfL : daysInYear (civilOfDay z).1 = 365 + leapDays (civilOfDay z).1 := rfl
  have hval : addYearsZ z 1 = yearStart ((civilOfDay z).1 + 1) +
      daysBeforeMonth (leapDays ((civilOfDay z).1 + 1)) (civilOfDay z).2.1 +
      ((civilOfDay z).2.2 - 1) := rfl
  omega

/-! ## ISO date strings (`toISOString().split('T')[0]`) -/

theorem digitChar_inj_aux : ∀ a : Nat, a < 10 → ∀ b : Nat, b < 10 →
    Char.ofNat (48 + a) = Char.ofNat (48 + b) → a = b := by decide

theorem digitChar_inj (a b : Int) (ha0 : 0 ≤ a) (ha1 : a < 10) (hb0 : 0 ≤ b) (hb1 : b < 10)
    (h : digitChar a = digitChar b) : a = b := by
  unfold digitChar at h
  have := digitChar_inj_aux a.toNat (by omega) b.toNat (by omega) h
  omega

theorem pad4_inj (a b : Int) (ha0 : 0 ≤ a) (ha1 : a ≤ 9999) (hb0 : 0 ≤ b) (hb1 : b ≤ 9999)
    (h : pad4 a = pad4 b) : a = b := by
  unfold pad4 at h
  injection h with h1 h
  injection h with h2 h
  injection h with h3 h
  injection h with h4 h
  have e1 := digitChar_inj _ _ (by omega) (by omega) (by omega) (by omega) h1
  have e2 := digitChar_inj _ _ (by omega) (by omega) (by omega) (by omega) h2
  have e3 := digitChar_inj _ _ (by omega) (by omega) (by omega) (by omega) h3
  have e4 := digitChar_inj _ _ (by omega) (by omega) (by omega) (by omega) h4
  omega

theorem pad2_inj (a b : Int) (ha0 : 0 ≤ a) (ha1 : a ≤ 99) (hb0 : 0 ≤ b) (hb1 : b ≤ 99)
    (h : pad2 a = pad2 b) : a = b := by
  unfold pad2 at h
  injection h with h1 h
  injection h with h2 h
  have e1 := digitChar_inj _ _ (by omega) (by omega) (by omega) (by omega) h1
  have e2 := digitChar_inj _ _ (by omega) (by omega) (by omega) (by omega) h2
  omega

theorem yearStart_mono (y1 y2 : Int) (h : y1 ≤ y2) : yearStart y1 ≤ yearStart y2 := by
  unfold yearStart
  omega

/-- A day number bounded by the last day of year `Y` has civil year at most `Y`. -/
theorem civil_year_le (z Y : Int) (hz : 0 ≤ z) (h : z ≤ dayOfCivil Y 12 31) :
    (civilOfDay z).1 ≤ Y := by
  obtain ⟨hrt, hy1, hm1, hm2, hd1, hd2, hup, hnext⟩ := civilOfDay_spec z hz
  have hrt2 : yearStart (civilOfDay z).1 +
      daysBeforeMonth (leapDays (civilOfDay z).1) (civilOfDay z).2.1 +
      ((civilOfDay z).2.2 - 1) = z := hrt
  have hL := leapDays_bounds (civilOfDay z).1
  have hLY := leapDays_bounds Y
  have hbm := daysBeforeMonth_bounds (leapDays (civilOfDay z).1) (civilOfDay z).2.1 hL.1 hm1 hm2
  have hYv : dayOfCivil Y 12 31 = yearStart Y + daysBeforeMonth (leapDays Y) 12 + (31 - 1) :=
    rfl
  rw [dbm12] at hYv
  by_contra hcon
  have hge : Y + 1 ≤ (civilOfDay z).1 := by omega
  have hmono := yearStart_mono (Y + 1) (civilOfDay z).1 hge
  have hys := yearStart_succ Y
  have hfY : daysInYear Y = 365 + leapDays Y := rfl
  omega

/-- ISO strings are injective on day numbers between year 1 and year 9999. -/
theorem isoOfDay_inj (z1 z2 : Int) (h01 : 0 ≤ z1) (h11 : z1 ≤ dayOfCivil 9999 12 31)
    (h02 : 0 ≤ z2) (h12 : z2 ≤ dayOfCivil 9999 12 31)
    (h : isoOfDay z1 = isoOfDay z2) : z1 = z2 := by
  obtain ⟨hrt1, hy11, hm11, hm12, hd11, hd12, hup1, hnx1⟩ := civilOfDay_spec z1 h01
  obtain ⟨hrt2, hy21, hm21, hm22, hd21, hd22, hup2, hnx2⟩ := civilOfDay_spec z2 h02
  have hY1 := civil_year_le z1 9999 h01 h11
  have hY2 := civil_year_le z2 9999 h02 h12
  unfold isoOfDay at h
  injection h with hdata
  have hlen1 : (pad4 (civilOfDay z1).1).length = 4 := rfl
  have hlen1b : (pad4 (civilOfDay z2).1).length = 4 := rfl
  have hlen : (pad4 (civilOfDay z1).1).length = (pad4 (civilOfDay z2).1).length :=
    hlen1.trans hlen1b.symm
  obtain ⟨hp4, hrest⟩ := List.append_inj hdata hlen
  injection hrest with hdash hrest
  have hlen2a : (pad2 (civilOfDay z1).2.1).length = 2 := rfl
  have hlen2b : (pad2 (civilOfDay z2).2.1).length = 2 := rfl
  have hlen2 : (pad2 (civilOfDay z1).2.1).length = (pad2 (civilOfDay z2).2.1).length :=
    hlen2a.trans hlen2b.symm
  obtain ⟨hp2m, hrest2⟩ := List.append_inj hrest hlen2
  injection hrest2 with hdash2 hp2d
  have hy := pad4_inj _ _ (by omega) hY1 (by omega) hY2 hp4
  have hm := pad2_inj _ _ (by omega) (by omega) (by omega) (by omega) hp2m
  have hd := pad2_inj _ _ (by omega) (by omega) (by omega) (by omega) hp2d
  rw [← hrt1, ← hrt2, hy, hm, hd]

/-! ## Application data model (`types.ts`) -/

theorem dbm_mono (L m1 m2 : Int) (hL : 0 ≤ L) (h1 : 1 ≤ m1) (h2 : m1 ≤ m2) (h3 : m2 ≤ 12) :
    daysBeforeMonth L m1 ≤ daysBeforeMonth L m2 := by
  have h4 : m1 ≤ 12 := le_trans h2 h3
  have h5 : 1 ≤ m2 := le_trans h1 h2
  interval_cases m1 <;> interval_cases m2 <;>
    simp only [dbm1, dbm2, dbm3, dbm4, dbm5, dbm6, dbm7, dbm8, dbm9, dbm10, dbm11, dbm12] <;>
    omega

/-- `dayOfCivil` is injective on genuinely valid civil dates (day-of-year
within the year, day within the month). -/
theorem dayOfCivil_inj (y1 m1 d1 y2 m2 d2 : Int)
    (hy1 : 1 ≤ y1) (hm1a : 1 ≤ m1) (hm1b : m1 ≤ 12) (hd1a : 1 ≤ d1)
    (hdoy1 : daysBeforeMonth (leapDays y1) m1 + d1 ≤ 365 + leapDays y1)
    (hnx1 : m1 ≤ 11 → daysBeforeMonth (leapDays y1) m1 + d1 ≤
      daysBeforeMonth (leapDays y1) (m1 + 1))
    (hy2 : 1 ≤ y2) (hm2a : 1 ≤ m2) (hm2b : m2 ≤ 12) (hd2a : 1 ≤ d2)
    (hdoy2 : daysBeforeMonth (leapDays y2) m2 + d2 ≤ 365 + leapDays y2)
    (hnx2 : m2 ≤ 11 → daysBeforeMonth (leapDays y2) m2 + d2 ≤
      daysBeforeMonth (leapDays y2) (m2 + 1))
    (heq : dayOfCivil y1 m1 d1 = dayOfCivil y2 m2 d2) :
    y1 = y2 ∧ m1 = m2 ∧ d1 = d2 := by
  have hL1 := leapDays_bounds y1
  have hL2 := leapDays_bounds y2
  have hb1 := daysBeforeMonth_bounds (leapDays y1) m1 hL1.1 hm1a hm1b
  have hb2 := daysBeforeMonth_bounds (leapDays y2) m2 hL2.1 hm2a hm2b
  have heq2 : yearStart y1 + daysBeforeMonth (leapDays y1) m1 + (d1 - 1) =
      yearStart y2 + daysBeforeMonth (leapDays y2) m2 + (d2 - 1) := heq
  have hyy : y1 = y2 := by
    rcases lt_trichotomy y1 y2 with hlt | heq3 | hgt
    · exfalso
      have hmono := yearStart_mono (y1 + 1) y2 (by omega)
      have hsucc := yearStart_succ y1
      have hfy : daysInYear y1 = 365 + leapDays y1 := rfl
      omega
    · exact heq3
    · exfalso
      have hmono := yearStart_mono (y2 + 1) y1 (by omega)
      have hsucc := yearStart_succ y2
      have hfy : daysInYear y2 = 365 + leapDays y2 := rfl
      omega
  subst hyy
  have hmm : m1 = m2 := by
    rcases lt_trichotomy m1 m2 with hlt | heq3 | hgt
    · exfalso
      have hmono := dbm_mono (leapDays y1) (m1 + 1) m2 hL1.1 (by omega) (by omega) hm2b
      have := hnx1 (by omega)
      omega
    · exact heq3
    · exfalso
      have hmono := dbm_mono (leapDays y1) (m2 + 1) m1 hL1.1 (by omega) (by omega) hm1b
      have := hnx2 (by omega)
      omega
  subst hmm
  exact ⟨rfl, rfl, by omega⟩

/-- Reverse roundtrip: a valid civil date is recovered from its day
number. -/
theorem civilOfDay_dayOfCivil (y m d : Int)
    (hy : 1 ≤ y) (hma : 1 ≤ m) (hmb : m ≤ 12) (hda : 1 ≤ d)
    (hdoy : daysBeforeMonth (leapDays y) m + d ≤ 365 + leapDays y)
    (hnx : m ≤ 11 → daysBeforeMonth (leapDays y) m + d ≤
      daysBeforeMonth (leapDays y) (m + 1)) :
    civilOfDay (dayOfCivil y m d) = (y, m, d) := by
  have hL := leapDays_bounds y
  have hb := daysBeforeMonth_bounds (leapDays y) m hL.1 hma hmb
  have hys : 0 ≤ yearStart y := by unfold yearStart; omega
  have hz : 0 ≤ dayOfCivil y m d := by
    have : dayOfCivil y m d = yearStart y + daysBeforeMonth (leapDays y) m + (d - 1) := rfl
    omega
  obtain ⟨hrt, hy1, hm1, hm2, hd1, hd2, hup, hnext⟩ := civilOfDay_spec (dayOfCivil y m d) hz
  obtain ⟨e1, e2, e3⟩ := dayOfCivil_inj _ _ _ y m d hy1 hm1 hm2 hd1 hup hnext
    hy hma hmb hda hdoy hnx hrt
  exact Prod.ext e1 (Prod.ext e2 e3)

theorem stepDate_bounds (f : String) (z : Int) (hz : 0 ≤ z) :
    z + 1 ≤ stepDate f z ∧ stepDate f z ≤ z + 366 := by
  unfold stepDate
  have hm := addMonthsZ_one_lt z hz
  have hy := addYearsZ_one_lt z hz
  unfold addDaysZ
  split_ifs <;> omega

/-- The materializer loop is `occDates`/`finalDate` with the per-date
emission filter. -/
theorem materializeGo_shape (rt : RecurringTransaction) (ex : List Transaction)
    (today : Int) (fuel : Nat) (cur : Int) :
    materializeGo rt ex today fuel cur =
      ((occDates rt.frequency today fuel cur).filterMap (fun z =>
          if ex.any (fun tx => tx.id = rt.id ++ "-" ++ isoOfDay z) then none
          else some (mkOccTx rt z)),
        finalDate rt.frequency today fuel cur) := by
  induction fuel generalizing cur with
  | zero => rfl
  | succ n ih =>
      by_cases hle : cur ≤ today
      · simp only [materializeGo, occDates, finalDate, if_pos hle,
          ih (stepDate rt.frequency cur), List.filterMap_cons]
        by_cases ha : ex.any (fun tx => tx.id = rt.id ++ "-" ++ isoOfDay cur)
        · simp [ha]
        · simp [ha]
      · simp only [materializeGo, occDates, finalDate, if_neg hle, List.filterMap_nil]

theorem stepIter_shift (f : String) (cur : Int) (k : Nat) :
    stepIter f cur (k + 1) = stepIter f (stepDate f cur) k := by
  induction k with
  | zero => rfl
  | succ n ih =>
      show stepDate f (stepIter f cur (n + 1)) = stepDate f (stepIter f (stepDate f cur) n)
      rw [ih]

/-- Main characterization of the loop's occurrence dates: they are the
first `n` step iterates of the start date, where `n` is the unique count
with the `n`-th iterate past `today`; the final date is the `n`-th
iterate. -/
theorem occDates_spec (f : String) (today : Int) (fuel : Nat) (cur : Int)
    (hcur : 0 ≤ cur) (hfuel : (today + 1 - cur).toNat ≤ fuel) :
    occDates f today fuel cur =
      (List.range (occDates f today fuel cur).length).map (stepIter f cur) ∧
    (∀ k < (occDates f today fuel cur).length, stepIter f cur k ≤ today) ∧
    today < stepIter f cur (occDates f today fuel cur).length ∧
    finalDate f today fuel cur = stepIter f cur (occDates f today fuel cur).length ∧
    (∀ z ∈ occDates f today fuel cur, cur ≤ z ∧ z ≤ today ∧ 0 ≤ z) := by
  induction fuel generalizing cur with
  | zero =>
      have htoday : today < cur := by omega
      refine ⟨rfl, ?_, ?_, rfl, ?_⟩
      · intro k hk
        simp only [occDates, List.length_nil] at hk
        omega
      · exact htoday
      · intro z hz
        simp only [occDates, List.not_mem_nil] at hz
  | succ n ih =>
      by_cases hle : cur ≤ today
      · have hs := stepDate_bounds f cur hcur
        have hfuel' : (today + 1 - stepDate f cur).toNat ≤ n := by omega
        obtain ⟨i1, i2, i3, i4, i5⟩ := ih (stepDate f cur) (by omega) hfuel'
        have hocc : occDates f today (n + 1) cur =
            cur :: occDates f today n (stepDate f cur) := by
          simp only [occDates, if_pos hle]
        have hfin : finalDate f today (n + 1) cur =
            finalDate f today n (stepDate f cur) := by
          simp only [finalDate, if_pos hle]
        have hlen : (occDates f today (n + 1) cur).length =
            (occDates f today n (stepDate f cur)).length + 1 := by
          rw [hocc]; rfl
        refine ⟨?_, ?_, ?_, ?_, ?_⟩
        · rw [hocc]
          simp only [List.length_cons, List.range_succ_eq_map, List.map_cons, List.map_map]
          congr 1
          have hfn : stepIter f cur ∘ Nat.succ = stepIter f (stepDate f cur) :=
            funext (fun k => stepIter_shift f cur k)
          rw [hfn]
          exact i1
        · intro k hk
          rw [hlen] at hk
          cases k with
          | zero => exact hle
          | succ kk =>
              rw [stepIter_shift]
              exact i2 kk (by omega)
        · rw [hlen, stepIter_shift]
          exact i3
        · rw [hfin, hlen, stepIter_shift]
          exact i4
        · intro z hz
          rw [hocc] at hz
          rcases List.mem_cons.mp hz with hz1 | hz2
          · subst hz1
            exact ⟨le_refl z, hle, hcur⟩
          · obtain ⟨j1, j2, j3⟩ := i5 z hz2
            exact ⟨by omega, j2, j3⟩
      · have hocc : occDates f today (n + 1) cur = [] := by
          simp only [occDates, if_neg hle]
        have hfin : finalDate f today (n + 1) cur = cur := by
          simp only [finalDate, if_neg hle]
        refine ⟨?_, ?_, ?_, ?_, ?_⟩
        · rw [hocc]; rfl
        · intro k hk
          rw [hocc] at hk
          simp only [List.length_nil] at hk
          omega
        · rw [hocc]
          have hs0 : stepIter f cur (List.length ([] : List Int)) = cur := rfl
          omega
        · rw [hfin, hocc]
          rfl
        · intro z hz
          rw [hocc] at hz
          simp only [List.not_mem_nil] at hz

theorem stepIter_nonneg (f : String) (cur : Int) (hcur : 0 ≤ cur) (k : Nat) :
    0 ≤ stepIter f cur k := by
  induction k with
  | zero => exact hcur
  | succ n ih =>
      have := stepDate_bounds f (stepIter f cur n) ih
      show 0 ≤ stepDate f (stepIter f cur n)
      omega

theorem stepIter_strictMono (f : String) (cur : Int) (hcur : 0 ≤ cur) :
    StrictMono (stepIter f cur) := by
  apply strictMono_nat_of_lt_succ
  intro k
  have hnn := stepIter_nonneg f cur hcur k
  have := stepDate_bounds f (stepIter f cur k) hnn
  show stepIter f cur k < stepDate f (stepIter f cur k)
  omega

theorem stepIter_linear (f : String) (p cur : Int) (hp : ∀ z : Int, stepDate f z = z + p)
    (k : Nat) : stepIter f cur k = cur + p * k := by
  induction k with
  | zero => simp [stepIter]
  | succ n ih =>
      show stepDate f (stepIter f cur n) = cur + p * (n + 1 : Nat)
      rw [hp, ih]
      push_cast
      ring

theorem stepDate_daily (z : Int) : stepDate "daily" z = z + 1 := rfl

theorem stepDate_weekly (z : Int) : stepDate "weekly" z = z + 7 := rfl

theorem stepDate_default (f : String) (hf1 : f ≠ "daily") (hf2 : f ≠ "weekly")
    (hf3 : f ≠ "monthly") (hf4 : f ≠ "yearly") (z : Int) : stepDate f z = z + 1 := by
  unfold stepDate
  rw [if_neg hf1, if_neg hf2, if_neg hf3, if_neg hf4]
  rfl

/-- Strings with equal data are equal. -/
theorem string_data_eq (a b : String) (h : a.data = b.data) : a = b := by
  cases a
  cases b
  exact congrArg String.mk h

theorem string_data_append (a b : String) : (a ++ b).data = a.data ++ b.data := by
  cases a
  cases b
  rfl

theorem string_append_left_cancel (a b c : String) (h : a ++ b = a ++ c) : b = c := by
  apply string_data_eq
  have hd := congrArg String.data h
  rw [string_data_append, string_data_append] at hd
  exact List.append_cancel_left hd

theorem isoOfDay_data_len (z : Int) : (isoOfDay z).data.length = 10 := rfl

/-- Generated transaction ids determine the rule id and (within the
supported year range) the occurrence date. -/
theorem genId_inj (r1 r2 : String) (z1 z2 : Int)
    (h01 : 0 ≤ z1) (h11 : z1 ≤ dayOfCivil 9999 12 31)
    (h02 : 0 ≤ z2) (h12 : z2 ≤ dayOfCivil 9999 12 31)
    (h : r1 ++ "-" ++ isoOfDay z1 = r2 ++ "-" ++ isoOfDay z2) : r1 = r2 ∧ z1 = z2 := by
  have hd := congrArg String.data h
  rw [string_data_append, string_data_append, string_data_append, string_data_append] at hd
  rw [List.append_assoc, List.append_assoc] at hd
  have hlen : ("-".data ++ (isoOfDay z1).data).length =
      ("-".data ++ (isoOfDay z2).data).length := by
    simp only [List.length_append, isoOfDay_data_len]
  obtain ⟨hr, hsuf⟩ := List.append_inj' hd (by simpa using hlen)
  have hiso : isoOfDay z1 = isoOfDay z2 := by
    apply string_data_eq
    exact List.append_cancel_left hsuf
  exact ⟨string_data_eq r1 r2 hr, isoOfDay_inj z1 z2 h01 h11 h02 h12 hiso⟩

/-- With no pre-existing transaction carrying a generated id of this rule,
the loop's filter drops nothing. -/
theorem filterMap_emit_all (rt : RecurringTransaction) (ex : List Transaction)
    (dates : List Int)
    (h : ∀ z ∈ dates, ∀ tx ∈ ex, tx.id ≠ rt.id ++ "-" ++ isoOfDay z) :
    dates.filterMap (fun z =>
        if ex.any (fun tx => tx.id = rt.id ++ "-" ++ isoOfDay z) then none
        else some (mkOccTx rt z)) = dates.map (mkOccTx rt) := by
  induction dates with
  | nil => rfl
  | cons d rest ih =>
      have hany : ex.any (fun tx => tx.id = rt.id ++ "-" ++ isoOfDay d) = false := by
        rw [List.any_eq_false]
        intro tx htx
        simpa using h d (List.mem_cons_self d rest) tx htx
      simp only [List.filterMap_cons, hany, Bool.false_eq_true, if_false, List.map_cons]
      rw [ih]
      intro z hz tx htx
      exact h z (List.mem_cons_of_mem d hz) tx htx

/-- C3: one monthly rule starting 2024-01-01 (amount 50, USD), processed
on 2024-03-15 with no existing transactions, emits exactly the three
transactions dated 2024-01-01, 2024-02-01 and 2024-03-01, each copying
the rule's descriptive fields, and advances the rule's next-occurrence
date to 2024-04-01. -/
theorem c3_monthly_backfill_example :
    processRecurringTransactions
      [{ id := "r1", description := "Rent", amount := 50, type := TxType.expense,
         category := "Housing", frequency := "monthly",
         startDate := dayOfCivil 2024 1 1, nextOccurrenceDate := dayOfCivil 2024 1 1,
         notes := none, currencyCode := "USD" }]
      [] (dayOfCivil 2024 3 15) =
    ([{ id := "r1-2024-01-01", description := "Rent", amount := 50, type := TxType.expense,
        date := dayOfCivil 2024 1 1, category := "Housing", notes := none,
        currencyCode := "USD" },
      { id := "r1-2024-02-01", description := "Rent", amount := 50, type := TxType.expense,
        date := dayOfCivil 2024 2 1, category := "Housing", notes := none,
        currencyCode := "USD" },
      { id := "r1-2024-03-01", description := "Rent", amount := 50, type := TxType.expense,
        date := dayOfCivil 2024 3 1, category := "Housing", notes := none,
        currencyCode := "USD" }],
     [{ id := "r1", description := "Rent", amount := 50, type := TxType.expense,
        category := "Housing", frequency := "monthly",
        startDate := dayOfCivil 2024 1 1, nextOccurrenceDate := dayOfCivil 2024 4 1,
        notes := none, currencyCode := "USD" }],
     true) := by
  decide

/-- The advanced date returned for a due rule is strictly beyond `today`. -/
theorem materializeRule_final_gt (rt : RecurringTransaction) (ex : List Transaction)
    (today : Int) (hnn : 0 ≤ rt.nextOccurrenceDate) :
    today < (materializeRule rt ex today).2 := by
  rw [materializeRule, materializeGo_shape]
  obtain ⟨_, _, h3, h4, _⟩ := occDates_spec rt.frequency today
    (today + 1 - rt.nextOccurrenceDate).toNat rt.nextOccurrenceDate hnn (le_refl _)
  dsimp only
  omega

/-- A rule whose next occurrence is in the future emits nothing and keeps
its date. -/
theorem materializeRule_of_future (rt : RecurringTransaction) (ex : List Transaction)
    (today : Int) (h : today < rt.nextOccurrenceDate) :
    materializeRule rt ex today = ([], rt.nextOccurrenceDate) := by
  have hz : (today + 1 - rt.nextOccurrenceDate).toNat = 0 := by omega
  rw [materializeRule, hz]
  rfl

/-- A rule set whose next occurrences all lie in the future passes through
the materializer unchanged, emitting nothing. -/
theorem process_of_all_future (rts : List RecurringTransaction) (txs : List Transaction)
    (today : Int) (h : ∀ rt ∈ rts, today < rt.nextOccurrenceDate) :
    processRecurringTransactions rts txs today = ([], rts, false) := by
  unfold processRecurringTransactions
  have h1 : ∀ rt ∈ rts, (materializeRule rt txs today).1 = [] := by
    intro rt hrt
    rw [materializeRule_of_future rt txs today (h rt hrt)]
  have h2 : ∀ rt ∈ rts, (materializeRule rt txs today).2 = rt.nextOccurrenceDate := by
    intro rt hrt
    rw [materializeRule_of_future rt txs today (h rt hrt)]
  refine Prod.ext ?_ (Prod.ext ?_ ?_)
  · dsimp only
    induction rts with
    | nil => rfl
    | cons rt rest ih =>
        simp only [List.map_cons, List.join, List.flatten_cons]
        rw [h1 rt (List.mem_cons_self rt rest), List.nil_append]
        exact ih (fun r hr => h r (List.mem_cons_of_mem rt hr))
          (fun r hr => h1 r (List.mem_cons_of_mem rt hr))
          (fun r hr => h2 r (List.mem_cons_of_mem rt hr))
  · dsimp only
    rw [List.map_congr_left (fun rt hrt => by rw [h2 rt hrt])]
    exact List.map_id rts
  · dsimp only
    rw [List.any_eq_false]
    intro rt hrt
    have := h rt hrt
    simp only [decide_eq_true_eq]
    omega

/-- C2: a second materialization pass over the updated rules produced by a
first pass, with the same `today` and any transaction set, emits nothing
and leaves every rule unchanged. -/
theorem c2_idempotent (rts : List RecurringTransaction) (txs txs2 : List Transaction)
    (today : Int) (hnn : ∀ rt ∈ rts, 0 ≤ rt.nextOccurrenceDate) :
    processRecurringTransactions
        (processRecurringTransactions rts txs today).2.1 txs2 today =
      ([], (processRecurringTransactions rts txs today).2.1, false) := by
  apply process_of_all_future
  intro rt' hrt'
  simp only [processRecurringTransactions, List.mem_map] at hrt'
  obtain ⟨rt, hrt, rfl⟩ := hrt'
  exact materializeRule_final_gt rt txs today (hnn rt hrt)

/-- Witness for C2 at a concrete input. -/
theorem c2_idempotent_witness :
    processRecurringTransactions
        (processRecurringTransactions
          [{ id := "r1", description := "Rent", amount := 50, type := TxType.expense,
             category := "Housing", frequency := "monthly",
             startDate := dayOfCivil 2024 1 1, nextOccurrenceDate := dayOfCivil 2024 1 1,
             notes := none, currencyCode := "USD" }]
          [] (dayOfCivil 2024 3 15)).2.1 [] (dayOfCivil 2024 3 15) =
      ([], (processRecurringTransactions
          [{ id := "r1", description := "Rent", amount := 50, type := TxType.expense,
             category := "Housing", frequency := "monthly",
             startDate := dayOfCivil 2024 1 1, nextOccurrenceDate := dayOfCivil 2024 1 1,
             notes := none, currencyCode := "USD" }]
          [] (dayOfCivil 2024 3 15)).2.1, false) :=
  c2_idempotent _ _ [] _ (by decide)

/-- With no existing transaction bearing this rule's generated-id shape,
the rule emits one transaction per occurrence date. -/
theorem materializeRule_emits_all (rt : RecurringTransaction) (ex : List Transaction)
    (today : Int)
    (hfr : ∀ tx ∈ ex, ∀ z : Int, tx.id ≠ rt.id ++ "-" ++ isoOfDay z) :
    (materializeRule rt ex today).1 =
      (occDates rt.frequency today (today + 1 - rt.nextOccurrenceDate).toNat
        rt.nextOccurrenceDate).map (mkOccTx rt) := by
  rw [materializeRule, materializeGo_shape]
  dsimp only
  apply filterMap_emit_all
  intro z _ tx htx
  exact hfr tx htx z

/-- The occurrence dates of a rule are strictly increasing, hence have no
duplicates. -/
theorem ruleDates_nodup (f : String) (today cur : Int) (fuel : Nat) (hcur : 0 ≤ cur)
    (hfuel : (today + 1 - cur).toNat ≤ fuel) :
    (occDates f today fuel cur).Nodup := by
  obtain ⟨h1, _, _, _, _⟩ := occDates_spec f today fuel cur hcur hfuel
  rw [h1]
  exact List.Nodup.map (stepIter_strictMono f cur hcur).injective (List.nodup_range _)

/-- C1 (amended): in one materialization pass, provided no existing
transaction already carries an id of the generated shape for any of the
rules (the amendment the deduplication check forces), every rule that is
due (next occurrence ≤ today) emits exactly `n + 1` transactions where
`n` is the unique number of whole frequency steps from the next-occurrence
date that stay on or before today — the calendar meaning of
`floor((today − nextOccurrence) / period)`, with the literal closed forms
for the fixed-length daily and weekly periods — each carrying the
deterministic id `ruleId-ISO(date)`, pairwise distinct and distinct from
every existing id (globally across rules when rule ids are distinct), and
the rule's next-occurrence date ends strictly beyond today. -/
theorem c1_materialization_amended (rts : List RecurringTransaction) (ex : List Transaction) (today : Int)
    (hnn : ∀ rt ∈ rts, 0 ≤ rt.nextOccurrenceDate)
    (htod : today ≤ dayOfCivil 9999 12 31)
    (hids : (rts.map (fun rt => rt.id)).Nodup)
    (hfresh : ∀ tx ∈ ex, ∀ rt ∈ rts, ∀ z : Int, tx.id ≠ rt.id ++ "-" ++ isoOfDay z) :
    (∀ rt ∈ rts, rt.nextOccurrenceDate ≤ today →
      (∀ n : Nat, ((materializeRule rt ex today).1.length = n + 1 ↔
        (stepIter rt.frequency rt.nextOccurrenceDate n ≤ today ∧
          today < stepIter rt.frequency rt.nextOccurrenceDate (n + 1)))) ∧
      (rt.frequency = "daily" →
        (materializeRule rt ex today).1.length = (today - rt.nextOccurrenceDate).toNat + 1) ∧
      (rt.frequency = "weekly" →
        (materializeRule rt ex today).1.length =
          (today - rt.nextOccurrenceDate).toNat / 7 + 1) ∧
      (∀ tx ∈ (materializeRule rt ex today).1,
        tx.id = rt.id ++ "-" ++ isoOfDay tx.date ∧
        rt.nextOccurrenceDate ≤ tx.date ∧ tx.date ≤ today ∧
        ∀ t ∈ ex, t.id ≠ tx.id) ∧
      ((materializeRule rt ex today).1.map (fun tx => tx.id)).Nodup ∧
      today < (materializeRule rt ex today).2) ∧
    (((processRecurringTransactions rts ex today).1).map (fun tx => tx.id)).Nodup := by
  have hmatsAll : ∀ rt ∈ rts, (materializeRule rt ex today).1 =
      (occDates rt.frequency today (today + 1 - rt.nextOccurrenceDate).toNat
        rt.nextOccurrenceDate).map (mkOccTx rt) := by
    intro rt hrt
    exact materializeRule_emits_all rt ex today (fun tx htx z => hfresh tx htx rt hrt z)
  have hdatesAll : ∀ rt ∈ rts, ∀ z ∈ occDates rt.frequency today
      (today + 1 - rt.nextOccurrenceDate).toNat rt.nextOccurrenceDate,
      rt.nextOccurrenceDate ≤ z ∧ z ≤ today ∧ 0 ≤ z := by
    intro rt hrt
    exact (occDates_spec rt.frequency today _ _ (hnn rt hrt) (le_refl _)).2.2.2.2
  have hidsNodupAll : ∀ rt ∈ rts,
      ((materializeRule rt ex today).1.map (fun tx => tx.id)).Nodup := by
    intro rt hrt
    rw [hmatsAll rt hrt, List.map_map]
    have hcomp : ((fun tx => tx.id) ∘ mkOccTx rt) =
        fun z => rt.id ++ "-" ++ isoOfDay z := rfl
    rw [hcomp]
    apply List.Nodup.map_on
    · intro z1 hz1 z2 hz2 heq
      have b1 := hdatesAll rt hrt z1 hz1
      have b2 := hdatesAll rt hrt z2 hz2
      exact (genId_inj rt.id rt.id z1 z2 b1.2.2 (by omega) b2.2.2 (by omega) heq).2
    · exact ruleDates_nodup rt.frequency today rt.nextOccurrenceDate _
        (hnn rt hrt) (le_refl _)
  constructor
  · intro rt hrt hdue
    have hnn' := hnn rt hrt
    obtain ⟨d1, d2, d3, d4, d5⟩ := occDates_spec rt.frequency today
      (today + 1 - rt.nextOccurrenceDate).toNat rt.nextOccurrenceDate hnn' (le_refl _)
    have hmats := hmatsAll rt hrt
    have hlen : (materializeRule rt ex today).1.length =
        (occDates rt.frequency today (today + 1 - rt.nextOccurrenceDate).toNat
          rt.nextOccurrenceDate).length := by
      rw [hmats, List.length_map]
    have hit0 : stepIter rt.frequency rt.nextOccurrenceDate 0 = rt.nextOccurrenceDate := rfl
    have hlen1 : 1 ≤ (occDates rt.frequency today (today + 1 - rt.nextOccurrenceDate).toNat
        rt.nextOccurrenceDate).length := by
      by_contra h0
      have he : (occDates rt.frequency today (today + 1 - rt.nextOccurrenceDate).toNat
          rt.nextOccurrenceDate).length = 0 := by omega
      rw [he] at d3
      omega
    have hmono := stepIter_strictMono rt.frequency rt.nextOccurrenceDate hnn'
    refine ⟨?_, ?_, ?_, ?_, hidsNodupAll rt hrt, materializeRule_final_gt rt ex today hnn'⟩
    · intro n
      constructor
      · intro he
        rw [hlen] at he
        constructor
        · exact d2 n (by omega)
        · rw [← he]
          exact d3
      · rintro ⟨ha, hb⟩
        rw [hlen]
        rcases lt_trichotomy ((occDates rt.frequency today
            (today + 1 - rt.nextOccurrenceDate).toNat rt.nextOccurrenceDate).length) (n + 1)
          with hl | hl | hl
        · exfalso
          have : stepIter rt.frequency rt.nextOccurrenceDate
              ((occDates rt.frequency today (today + 1 - rt.nextOccurrenceDate).toNat
                rt.nextOccurrenceDate).length) ≤
              stepIter rt.frequency rt.nextOccurrenceDate n :=
            hmono.monotone (by omega)
          omega
        · exact hl
        · exfalso
          have := d2 (n + 1) (by omega)
          omega
    · intro hfd
      have hp : ∀ z : Int, stepDate rt.frequency z = z + 1 := by
        intro z
        rw [hfd]
        exact stepDate_daily z
      have hlin := stepIter_linear rt.frequency 1 rt.nextOccurrenceDate hp
      obtain ⟨m, hm⟩ := Nat.exists_eq_add_of_le hlen1
      have ha := d2 m (by omega)
      have hb := d3
      rw [hm] at hb
      rw [hlin] at ha
      rw [hlin] at hb
      rw [hlen, hm]
      push_cast at ha hb
      omega
    · intro hfw
      have hp : ∀ z : Int, stepDate rt.frequency z = z + 7 := by
        intro z
        rw [hfw]
        exact stepDate_weekly z
      have hlin := stepIter_linear rt.frequency 7 rt.nextOccurrenceDate hp
      obtain ⟨m, hm⟩ := Nat.exists_eq_add_of_le hlen1
      have ha := d2 m (by omega)
      have hb := d3
      rw [hm] at hb
      rw [hlin] at ha
      rw [hlin] at hb
      rw [hlen, hm]
      push_cast at ha hb
      omega
    · intro tx htx
      rw [hmats] at htx
      obtain ⟨z, hz, rfl⟩ := List.mem_map.mp htx
      obtain ⟨b1, b2, b3⟩ := hdatesAll rt hrt z hz
      refine ⟨rfl, b1, b2, ?_⟩
      intro t ht
      exact hfresh t ht rt hrt z
  · unfold processRecurringTransactions
    dsimp only
    rw [List.map_join, List.map_map]
    rw [List.nodup_join]
    constructor
    · intro s hs
      rw [List.mem_map] at hs
      obtain ⟨rt, hrt, rfl⟩ := hs
      exact hidsNodupAll rt hrt
    · have hpw : List.Pairwise (fun a b : RecurringTransaction => a.id ≠ b.id) rts :=
        List.pairwise_map.mp hids
      apply List.pairwise_map.mpr
      refine List.Pairwise.imp_of_mem ?_ hpw
      intro a b ha hb hne
      intro x hx1 hx2
      dsimp only [Function.comp] at hx1 hx2
      rw [hmatsAll a ha, List.map_map] at hx1
      rw [hmatsAll b hb, List.map_map] at hx2
      obtain ⟨z1, hz1, hid1⟩ := List.mem_map.mp hx1
      obtain ⟨z2, hz2, hid2⟩ := List.mem_map.mp hx2
      have e1 : a.id ++ "-" ++ isoOfDay z1 = x := hid1
      have e2 : b.id ++ "-" ++ isoOfDay z2 = x := hid2
      obtain ⟨c1, c2, c3⟩ := hdatesAll a ha z1 hz1
      obtain ⟨c4, c5, c6⟩ := hdatesAll b hb z2 hz2
      exact hne (genId_inj a.id b.id z1 z2 c3 (by omega) c6 (by omega)
        (e1.trans e2.symm)).1

/-- Witness for C1 at a concrete input. -/
theorem c1_materialization_amended_witness :
    (∀ rt ∈ [sampleMonthlyRule], rt.nextOccurrenceDate ≤ dayOfCivil 2024 3 15 →
      (∀ n : Nat, ((materializeRule rt [] (dayOfCivil 2024 3 15)).1.length = n + 1 ↔
        (stepIter rt.frequency rt.nextOccurrenceDate n ≤ dayOfCivil 2024 3 15 ∧
          dayOfCivil 2024 3 15 < stepIter rt.frequency rt.nextOccurrenceDate (n + 1)))) ∧
      (rt.frequency = "daily" →
        (materializeRule rt [] (dayOfCivil 2024 3 15)).1.length =
          (dayOfCivil 2024 3 15 - rt.nextOccurrenceDate).toNat + 1) ∧
      (rt.frequency = "weekly" →
        (materializeRule rt [] (dayOfCivil 2024 3 15)).1.length =
          (dayOfCivil 2024 3 15 - rt.nextOccurrenceDate).toNat / 7 + 1) ∧
      (∀ tx ∈ (materializeRule rt [] (dayOfCivil 2024 3 15)).1,
        tx.id = rt.id ++ "-" ++ isoOfDay tx.date ∧
        rt.nextOccurrenceDate ≤ tx.date ∧ tx.date ≤ dayOfCivil 2024 3 15 ∧
        ∀ t ∈ ([] : List Transaction), t.id ≠ tx.id) ∧
      ((materializeRule rt [] (dayOfCivil 2024 3 15)).1.map (fun tx => tx.id)).Nodup ∧
      dayOfCivil 2024 3 15 < (materializeRule rt [] (dayOfCivil 2024 3 15)).2) ∧
    (((processRecurringTransactions [sampleMonthlyRule] [] (dayOfCivil 2024 3 15)).1).map
      (fun tx => tx.id)).Nodup :=
  c1_materialization_amended [sampleMonthlyRule] [] (dayOfCivil 2024 3 15)
    (by decide) (by decide) (by decide)
    (fun tx htx => absurd htx (List.not_mem_nil tx))

/-- The advanced date never moves backwards. -/
theorem materializeRule_final_ge (rt : RecurringTransaction) (ex : List Transaction)
    (today : Int) (hnn : 0 ≤ rt.nextOccurrenceDate) :
    rt.nextOccurrenceDate ≤ (materializeRule rt ex today).2 := by
  rw [materializeRule, materializeGo_shape]
  obtain ⟨_, _, _, h4, _⟩ := occDates_spec rt.frequency today
    (today + 1 - rt.nextOccurrenceDate).toNat rt.nextOccurrenceDate hnn (le_refl _)
  dsimp only
  rw [h4]
  have hmono := stepIter_strictMono rt.frequency rt.nextOccurrenceDate hnn
  exact hmono.monotone (Nat.zero_le _)

/-- Every transaction a cycle emits is dated between the rule's
next-occurrence date and today. -/
theorem materializeRule_mem_dates (rt : RecurringTransaction) (ex : List Transaction)
    (today : Int) (hnn : 0 ≤ rt.nextOccurrenceDate) :
    ∀ tx ∈ (materializeRule rt ex today).1,
      rt.nextOccurrenceDate ≤ tx.date ∧ tx.date ≤ today ∧ 0 ≤ tx.date := by
  intro tx htx
  rw [materializeRule, materializeGo_shape] at htx
  dsimp only at htx
  obtain ⟨z, hz, he⟩ := List.mem_filterMap.mp htx
  obtain ⟨_, _, _, _, d5⟩ := occDates_spec rt.frequency today
    (today + 1 - rt.nextOccurrenceDate).toNat rt.nextOccurrenceDate hnn (le_refl _)
  obtain ⟨b1, b2, b3⟩ := d5 z hz
  have hdate : tx.date = z := by
    by_cases ha : ex.any (fun t => t.id = rt.id ++ "-" ++ isoOfDay z)
    · rw [if_pos ha] at he
      exact absurd he (Option.noConfusion)
    · rw [if_neg ha] at he
      have := Option.some.inj he
      rw [← this]
      rfl
  rw [hdate]
  exact ⟨b1, b2, b3⟩

/-- The advanced date is a whole number of frequency steps past the old
one, and at least one step is taken exactly when the rule is due. -/
theorem materializeRule_steps (rt : RecurringTransaction) (ex : List Transaction)
    (today : Int) (hnn : 0 ≤ rt.nextOccurrenceDate) :
    ∃ k : Nat, (materializeRule rt ex today).2 =
        stepIter rt.frequency rt.nextOccurrenceDate k ∧
      (1 ≤ k ↔ rt.nextOccurrenceDate ≤ today) := by
  rw [materializeRule, materializeGo_shape]
  obtain ⟨_, d2, d3, d4, _⟩ := occDates_spec rt.frequency today
    (today + 1 - rt.nextOccurrenceDate).toNat rt.nextOccurrenceDate hnn (le_refl _)
  dsimp only
  refine ⟨(occDates rt.frequency today (today + 1 - rt.nextOccurrenceDate).toNat
    rt.nextOccurrenceDate).length, d4, ?_, ?_⟩
  · intro hk
    have := d2 0 (by omega)
    have h0 : stepIter rt.frequency rt.nextOccurrenceDate 0 = rt.nextOccurrenceDate := rfl
    omega
  · intro hdue
    by_contra hk
    have h0 : (occDates rt.frequency today (today + 1 - rt.nextOccurrenceDate).toNat
        rt.nextOccurrenceDate).length = 0 := by omega
    rw [h0] at d3
    have h1 : stepIter rt.frequency rt.nextOccurrenceDate 0 = rt.nextOccurrenceDate := rfl
    omega

/-- Invariant of cycle sequences: the next-occurrence date never moves
backwards, and stays strictly beyond the date of every transaction
materialized from this rule so far. -/
theorem runRuleCycles_spec (rt : RecurringTransaction)
    (cycles : List (Int × List Transaction)) (hnn : 0 ≤ rt.nextOccurrenceDate) :
    0 ≤ (runRuleCycles rt cycles).1.nextOccurrenceDate ∧
    rt.nextOccurrenceDate ≤ (runRuleCycles rt cycles).1.nextOccurrenceDate ∧
    (∀ tx ∈ (runRuleCycles rt cycles).2,
      tx.date < (runRuleCycles rt cycles).1.nextOccurrenceDate) := by
  induction cycles generalizing rt with
  | nil =>
      exact ⟨hnn, le_refl _, fun tx htx => absurd htx (List.not_mem_nil tx)⟩
  | cons c rest ih =>
      obtain ⟨today, ex⟩ := c
      have hge := materializeRule_final_ge rt ex today hnn
      have hgt := materializeRule_final_gt rt ex today hnn
      have hmem := materializeRule_mem_dates rt ex today hnn
      obtain ⟨i1, i2, i3⟩ := ih { rt with nextOccurrenceDate := (materializeRule rt ex today).2 }
        (by dsimp only; omega)
      dsimp only at i1 i2 i3
      refine ⟨i1, by dsimp only [runRuleCycles]; omega, ?_⟩
      intro tx htx
      dsimp only [runRuleCycles] at htx ⊢
      rcases List.mem_append.mp htx with h1 | h2
      · obtain ⟨m1, m2, m3⟩ := hmem tx h1
        omega
      · exact i3 tx h2

/-- C8 (amended): across any sequence of materialization cycles the
rule's next-occurrence date stays (strictly) above the date of every
transaction materialized from the rule; each cycle advances the date by a
whole number of frequency steps — at least one exactly when the rule is
due, rather than exactly one per cycle — and a single step is daily +1
day, weekly +7 days, monthly +1 calendar month, yearly +1 year, with an
unrecognized frequency falling back to daily. -/
theorem c8_next_occurrence_invariant (rt : RecurringTransaction)
    (cycles : List (Int × List Transaction)) (hnn : 0 ≤ rt.nextOccurrenceDate) :
    (∀ tx ∈ (runRuleCycles rt cycles).2,
      tx.date < (runRuleCycles rt cycles).1.nextOccurrenceDate) ∧
    (∀ ex today, ∃ k : Nat, (materializeRule rt ex today).2 =
        stepIter rt.frequency rt.nextOccurrenceDate k ∧
      (1 ≤ k ↔ rt.nextOccurrenceDate ≤ today)) ∧
    (∀ z : Int, stepDate "daily" z = addDaysZ z 1 ∧ stepDate "weekly" z = addDaysZ z 7 ∧
      stepDate "monthly" z = addMonthsZ z 1 ∧ stepDate "yearly" z = addYearsZ z 1) ∧
    (∀ f : String, f ≠ "daily" → f ≠ "weekly" → f ≠ "monthly" → f ≠ "yearly" →
      ∀ z : Int, stepDate f z = addDaysZ z 1) := by
  refine ⟨(runRuleCycles_spec rt cycles hnn).2.2, ?_, ?_, ?_⟩
  · intro ex today
    exact materializeRule_steps rt ex today hnn
  · intro z
    refine ⟨rfl, rfl, ?_, ?_⟩ <;> rfl
  · intro f h1 h2 h3 h4 z
    exact stepDate_default f h1 h2 h3 h4 z

/-- C8 counterexample to the claim as stated: a daily rule one day behind
advances by two frequency steps in a single materialization cycle, not by
one. -/
theorem c8_counterexample :
    (materializeRule
      { id := "r", description := "d", amount := 1, type := TxType.income,
        category := "c", frequency := "daily",
        startDate := dayOfCivil 2024 1 1, nextOccurrenceDate := dayOfCivil 2024 1 1,
        notes := none, currencyCode := "USD" }
      [] (dayOfCivil 2024 1 2)).2 = dayOfCivil 2024 1 1 + 2 ∧
    dayOfCivil 2024 1 1 + 2 ≠ stepDate "daily" (dayOfCivil 2024 1 1) := by
  constructor
  · decide
  · decide

/-- Witness for C8 at a concrete input. -/
theorem c8_next_occurrence_invariant_witness :
    (∀ tx ∈ (runRuleCycles sampleMonthlyRule
        [(dayOfCivil 2024 3 15, [])]).2,
      tx.date < (runRuleCycles sampleMonthlyRule
        [(dayOfCivil 2024 3 15, [])]).1.nextOccurrenceDate) ∧
    (∀ ex today, ∃ k : Nat, (materializeRule sampleMonthlyRule ex today).2 =
        stepIter sampleMonthlyRule.frequency sampleMonthlyRule.nextOccurrenceDate k ∧
      (1 ≤ k ↔ sampleMonthlyRule.nextOccurrenceDate ≤ today)) ∧
    (∀ z : Int, stepDate "daily" z = addDaysZ z 1 ∧ stepDate "weekly" z = addDaysZ z 7 ∧
      stepDate "monthly" z = addMonthsZ z 1 ∧ stepDate "yearly" z = addYearsZ z 1) ∧
    (∀ f : String, f ≠ "daily" → f ≠ "weekly" → f ≠ "monthly" → f ≠ "yearly" →
      ∀ z : Int, stepDate f z = addDaysZ z 1) :=
  c8_next_occurrence_invariant sampleMonthlyRule [(dayOfCivil 2024 3 15, [])] (by decide)

/-- C1 counterexample to the claim as stated: a daily rule due exactly
today should, by the unconditional count formula, emit one transaction,
but an existing transaction whose id happens to equal the generated id
suppresses the emission, so zero transactions are produced. -/
theorem c1_counterexample :
    (materializeRule
      { id := "r", description := "d", amount := 1, type := TxType.income,
        category := "c", frequency := "daily",
        startDate := dayOfCivil 2024 1 1, nextOccurrenceDate := dayOfCivil 2024 1 1,
        notes := none, currencyCode := "USD" }
      [{ id := "r-2024-01-01", description := "x", amount := 1, type := TxType.income,
         date := dayOfCivil 2024 1 1, category := "c", notes := none,
         currencyCode := "USD" }]
      (dayOfCivil 2024 1 1)).1.length = 0 ∧ (0 : Nat) ≠
      (dayOfCivil 2024 1 1 - dayOfCivil 2024 1 1).toNat + 1 := by
  constructor
  · decide
  · decide

/-- `mapGetD` on the empty map. -/
theorem mapGetD_nil (k : String) : mapGetD [] k = 0 := rfl

/-- `mapGetD` on a cons cell. -/
theorem mapGetD_cons (a : String) (b : ℚ) (rest : List (String × ℚ)) (k : String) :
    mapGetD ((a, b) :: rest) k = if a = k then b else mapGetD rest k := by
  by_cases h : a = k
  · rw [if_pos h, mapGetD, List.find?_cons_of_pos _ (by simp [h])]
  · rw [if_neg h, mapGetD, List.find?_cons_of_neg _ (by simp [h])]
    rfl

/-- Setting a key then reading it back gives the new value. -/
theorem mapGetD_mapSet_self (mp : List (String × ℚ)) (k : String) (v : ℚ) :
    mapGetD (mapSet mp k v) k = v := by
  induction mp with
  | nil => rw [mapSet, mapGetD_cons, if_pos rfl]
  | cons p rest ih =>
      obtain ⟨a, b⟩ := p
      by_cases ha : a = k
      · rw [mapSet, if_pos ha, mapGetD_cons, if_pos rfl]
      · rw [mapSet, if_neg ha, mapGetD_cons, if_neg ha]
        exact ih

/-- Setting a key leaves every other key's value unchanged. -/
theorem mapGetD_mapSet_ne (mp : List (String × ℚ)) (k k' : String) (v : ℚ)
    (h : k' ≠ k) : mapGetD (mapSet mp k v) k' = mapGetD mp k' := by
  induction mp with
  | nil =>
      rw [mapSet, mapGetD_cons, if_neg (fun hh => h hh.symm), mapGetD_nil]
  | cons p rest ih =>
      obtain ⟨a, b⟩ := p
      by_cases ha : a = k
      · rw [mapSet, if_pos ha, mapGetD_cons, if_neg (fun hh => h hh.symm), mapGetD_cons,
          if_neg (fun hh => h (hh.symm.trans ha))]
      · rw [mapSet, if_neg ha, mapGetD_cons, mapGetD_cons, ih]

/-- The key list after a `mapSet`: unchanged when the key was present,
otherwise the key is appended. -/
theorem mapSet_keys (mp : List (String × ℚ)) (k : String) (v : ℚ) :
    (mapSet mp k v).map Prod.fst =
      if k ∈ mp.map Prod.fst then mp.map Prod.fst else mp.map Prod.fst ++ [k] := by
  induction mp with
  | nil => simp [mapSet]
  | cons p rest ih =>
      obtain ⟨a, b⟩ := p
      by_cases ha : a = k
      · subst ha
        rw [mapSet, if_pos rfl]
        simp
      · rw [mapSet, if_neg ha, List.map_cons, ih, List.map_cons]
        by_cases hm : k ∈ rest.map Prod.fst
        · rw [if_pos hm, if_pos (List.mem_cons_of_mem _ hm)]
        · rw [if_neg hm, if_neg (by simp [hm, Ne.symm ha]), List.cons_append]

/-- `mapSet` preserves distinctness of keys. -/
theorem mapSet_keys_nodup (mp : List (String × ℚ)) (k : String) (v : ℚ)
    (h : (mp.map Prod.fst).Nodup) : ((mapSet mp k v).map Prod.fst).Nodup := by
  rw [mapSet_keys]
  by_cases hm : k ∈ mp.map Prod.fst
  · rw [if_pos hm]
    exact h
  · rw [if_neg hm]
    refine List.Nodup.append h (List.nodup_singleton k) ?_
    intro x hx hx'
    rw [List.mem_singleton] at hx'
    exact hm (hx' ▸ hx)

/-- A key that is absent reads back as 0. -/
theorem mapGetD_eq_zero (mp : List (String × ℚ)) (k : String)
    (h : k ∉ mp.map Prod.fst) : mapGetD mp k = 0 := by
  induction mp with
  | nil => rfl
  | cons p rest ih =>
      obtain ⟨a, b⟩ := p
      rw [List.map_cons, List.mem_cons] at h
      push_neg at h
      rw [mapGetD_cons, if_neg (fun hh => h.1 hh.symm)]
      exact ih h.2

/-- Filtering a map by an absent key yields nothing. -/
theorem filter_key_nil (mp : List (String × ℚ)) (k : String)
    (h : k ∉ mp.map Prod.fst) : mp.filter (fun p => p.1 = k) = [] := by
  induction mp with
  | nil => rfl
  | cons p rest ih =>
      obtain ⟨a, b⟩ := p
      rw [List.map_cons, List.mem_cons] at h
      push_neg at h
      have h1 : ¬ a = k := fun hh => h.1 hh.symm
      rw [List.filter_cons, if_neg (by simp [h1])]
      exact ih h.2

/-- With distinct keys, summing the values at a key equals the lookup. -/
theorem sum_filter_key (mp : List (String × ℚ)) (k : String)
    (h : (mp.map Prod.fst).Nodup) :
    ((mp.filter (fun p => p.1 = k)).map Prod.snd).sum = mapGetD mp k := by
  induction mp with
  | nil => rfl
  | cons p rest ih =>
      obtain ⟨a, b⟩ := p
      rw [List.map_cons, List.nodup_cons] at h
      rw [List.filter_cons, mapGetD_cons]
      by_cases ha : a = k
      · rw [if_pos (by simp [ha]), if_pos ha, List.map_cons, List.sum_cons,
          filter_key_nil rest k (ha ▸ h.1), List.map_nil, List.sum_nil, add_zero]
      · rw [if_neg (by simp [ha]), if_neg ha]
        exact ih h.2

/-- Invariant of the `forEach` fold of `calculateSummary`. -/
theorem summarizeFold_spec (l : List Transaction) (a b : ℚ) (mp : List (String × ℚ)) :
    (l.foldl summarizeStep (a, b, mp)).1 =
      a + ((l.filter fun tx => tx.type = TxType.income).map Transaction.amount).sum ∧
    (l.foldl summarizeStep (a, b, mp)).2.1 =
      b + ((l.filter fun tx => ¬ tx.type = TxType.income).map Transaction.amount).sum ∧
    (∀ cat : String, mapGetD (l.foldl summarizeStep (a, b, mp)).2.2 cat =
      mapGetD mp cat + ((l.filter fun tx => tx.category = cat).map Transaction.amount).sum) ∧
    ((mp.map Prod.fst).Nodup → ((l.foldl summarizeStep (a, b, mp)).2.2.map Prod.fst).Nodup) := by
  induction l generalizing a b mp with
  | nil => exact ⟨by simp, by simp, fun cat => by simp, fun h => h⟩
  | cons tx l ih =>
      rw [List.foldl_cons]
      have hstep : summarizeStep (a, b, mp) tx =
        (if tx.type = TxType.income then a + tx.amount else a,
          if tx.type = TxType.income then b else b + tx.amount,
          mapSet mp tx.category (mapGetD mp tx.category + tx.amount)) := rfl
      rw [hstep]
      obtain ⟨i1, i2, i3, i4⟩ := ih (if tx.type = TxType.income then a + tx.amount else a)
        (if tx.type = TxType.income then b else b + tx.amount)
        (mapSet mp tx.category (mapGetD mp tx.category + tx.amount))
      refine ⟨?_, ?_, ?_, ?_⟩
      · rw [i1, List.filter_cons]
        by_cases hty : tx.type = TxType.income
        · rw [if_pos hty, if_pos (by simp [hty]), List.map_cons, List.sum_cons]
          ring
        · rw [if_neg hty, if_neg (by simp [hty])]
      · rw [i2, List.filter_cons]
        by_cases hty : tx.type = TxType.income
        · rw [if_pos hty, if_neg (by simp [hty])]
        · rw [if_neg hty, if_pos (by simp [hty]), List.map_cons, List.sum_cons]
          ring
      · intro cat
        rw [i3 cat, List.filter_cons]
        by_cases hcat : tx.category = cat
        · subst hcat
          rw [if_pos (by simp), List.map_cons, List.sum_cons, mapGetD_mapSet_self]
          ring
        · rw [if_neg (by simp [hcat]),
            mapGetD_mapSet_ne mp tx.category cat _ (fun hh => hcat hh.symm)]
      · intro h
        exact i4 (mapSet_keys_nodup mp tx.category _ h)

/-- C4: `calculateSummary` sums income and expense separately over the
currency-matching transactions, `netSavings` is exactly their difference,
the category breakdown has distinct categories and each category's total
is the sum over matching transactions of both types, and the empty list
yields the all-zero summary with an empty breakdown. -/
theorem c4_calculate_summary (txs : List Transaction) (cc : String) :
    (calculateSummary txs cc).totalIncome =
      (((txs.filter fun tx => tx.currencyCode = cc).filter
        fun tx => tx.type = TxType.income).map Transaction.amount).sum ∧
    (calculateSummary txs cc).totalExpense =
      (((txs.filter fun tx => tx.currencyCode = cc).filter
        fun tx => ¬ tx.type = TxType.income).map Transaction.amount).sum ∧
    (calculateSummary txs cc).netSavings =
      (calculateSummary txs cc).totalIncome - (calculateSummary txs cc).totalExpense ∧
    ((calculateSummary txs cc).categoryBreakdown.map CategoryBreakdown.category).Nodup ∧
    (∀ cat : String,
      ((((calculateSummary txs cc).categoryBreakdown.filter
        fun cb => cb.category = cat).map CategoryBreakdown.amount).sum =
      (((txs.filter fun tx => tx.currencyCode = cc).filter
        fun tx => tx.category = cat).map Transaction.amount).sum)) ∧
    calculateSummary [] cc =
      { totalIncome := 0, totalExpense := 0, netSavings := 0, categoryBreakdown := [] } := by
  obtain ⟨h1, h2, h3, h4⟩ := summarizeFold_spec (txs.filter fun tx => tx.currencyCode = cc) 0 0 []
  have hnodup := h4 List.nodup_nil
  rw [calculateSummary]
  dsimp only
  have hcomp1 : (CategoryBreakdown.category ∘ fun p : String × ℚ =>
      ({ category := p.1, amount := p.2 } : CategoryBreakdown)) = Prod.fst := by
    funext p
    rfl
  refine ⟨by rw [h1, zero_add], by rw [h2, zero_add], rfl, ?_, ?_, by simp [calculateSummary]⟩
  · rw [List.map_map, hcomp1]
    exact hnodup
  · intro cat
    rw [List.filter_map, List.map_map]
    have hcomp2 : ((fun cb : CategoryBreakdown => decide (cb.category = cat)) ∘
        fun p : String × ℚ => ({ category := p.1, amount := p.2 } : CategoryBreakdown)) =
        fun p : String × ℚ => decide (p.1 = cat) := by
      funext p
      rfl
    have hcomp3 : (CategoryBreakdown.amount ∘ fun p : String × ℚ =>
        ({ category := p.1, amount := p.2 } : CategoryBreakdown)) = Prod.snd := by
      funext p
      rfl
    rw [hcomp2, hcomp3]
    rw [sum_filter_key _ cat hnodup, h3 cat, mapGetD_nil, zero_add]

/-- Filtering a breakdown by an absent category yields nothing. -/
theorem filter_cat_nil (l : List CategoryBreakdown) (c : String)
    (h : c ∉ l.map CategoryBreakdown.category) :
    l.filter (fun cb => cb.category = c) = [] := by
  induction l with
  | nil => rfl
  | cons cb rest ih =>
      rw [List.map_cons, List.mem_cons] at h
      push_neg at h
      have h1 : ¬ cb.category = c := fun hh => h.1 hh.symm
      rw [List.filter_cons, if_neg (by simp [h1])]
      exact ih h.2

/-- C5: a budget produces an alert exactly when its amount is positive and
`spent / amount * 100` reaches the threshold, where `spent` is the sum of
the matching category's entries of the already-filtered breakdown (0 when
the category is absent); a zero-amount budget never alerts; with threshold
75 and budget 100, a spend of 80 alerts with percentage 80 and a spend of
74 does not. -/
theorem c5_budget_alerts (s : SummaryData) (budgets : List Budget) (thr : ℚ) :
    (∀ a : BudgetAlert, a ∈ getBudgetAlerts s budgets thr ↔
      ∃ b ∈ budgets, 0 < b.amount ∧
        thr ≤ ((s.categoryBreakdown.filter fun cb => cb.category = b.category).map
            CategoryBreakdown.amount).sum / b.amount * 100 ∧
        a = { category := b.category,
              spent := ((s.categoryBreakdown.filter fun cb => cb.category = b.category).map
                CategoryBreakdown.amount).sum,
              budget := b.amount,
              percentage := ((s.categoryBreakdown.filter
                fun cb => cb.category = b.category).map
                CategoryBreakdown.amount).sum / b.amount * 100 }) ∧
    (∀ b : Budget, b.category ∉ s.categoryBreakdown.map CategoryBreakdown.category →
      ((s.categoryBreakdown.filter fun cb => cb.category = b.category).map
        CategoryBreakdown.amount).sum = 0) ∧
    (∀ b : Budget, b.amount = 0 → ∀ s' : SummaryData, ∀ t : ℚ,
      getBudgetAlerts s' [b] t = []) ∧
    getBudgetAlerts { totalIncome := 0, totalExpense := 80, netSavings := -80, categoryBreakdown := [{ category := "Food", amount := 80 }] } [{ category := "Food", amount := 100 }] 75 = [{ category := "Food", spent := 80, budget := 100, percentage := 80 }] ∧
    getBudgetAlerts { totalIncome := 0, totalExpense := 74, netSavings := -74, categoryBreakdown := [{ category := "Food", amount := 74 }] } [{ category := "Food", amount := 100 }] 75 = [] := by
  refine ⟨?_, ?_, ?_, ?_, ?_⟩
  · intro a
    rw [getBudgetAlerts, List.mem_filterMap]
    constructor
    · rintro ⟨b, hb, hfb⟩
      dsimp only at hfb
      by_cases hc : 0 < b.amount ∧
        thr ≤ ((s.categoryBreakdown.filter fun cb => cb.category = b.category).map
          CategoryBreakdown.amount).sum / b.amount * 100
      · rw [if_pos hc] at hfb
        exact ⟨b, hb, hc.1, hc.2, (Option.some.inj hfb).symm⟩
      · rw [if_neg hc] at hfb
        exact absurd hfb (Option.noConfusion)
    · rintro ⟨b, hb, h1, h2, ha⟩
      refine ⟨b, hb, ?_⟩
      dsimp only
      rw [if_pos ⟨h1, h2⟩, ha]
  · intro b hmem
    rw [filter_cat_nil s.categoryBreakdown b.category hmem, List.map_nil, List.sum_nil]
  · intro b hb0 s' t
    rw [getBudgetAlerts]
    simp [hb0]
  · norm_num [getBudgetAlerts, List.filterMap_cons]
  · norm_num [getBudgetAlerts, List.filterMap_cons]

/-- Witness for C5's alert characterization at a concrete input. -/
theorem c5_budget_alerts_witness :
    ({ category := "Food", spent := 80, budget := 100, percentage := 80 } : BudgetAlert) ∈
      getBudgetAlerts { totalIncome := 0, totalExpense := 80, netSavings := -80, categoryBreakdown := [{ category := "Food", amount := 80 }] } [{ category := "Food", amount := 100 }] 75 :=
  ((c5_budget_alerts { totalIncome := 0, totalExpense := 80, netSavings := -80, categoryBreakdown := [{ category := "Food", amount := 80 }] } [{ category := "Food", amount := 100 }] 75).1
    { category := "Food", spent := 80, budget := 100, percentage := 80 }).mpr
    ⟨{ category := "Food", amount := 100 }, by norm_num, by norm_num, by norm_num, by norm_num⟩

/-- C6: the period filter (applied before any currency filtering) keeps
for `daily` exactly the transactions dated today, for `weekly` exactly
those on or after the most recent Sunday, and for `monthly` exactly those
on or after the first of the current month; the subsequent currency
filter keeps exactly the transactions with the requested currency code,
unchanged. -/
theorem c6_period_filter (txs : List Transaction) (now : Int) (cc : String)
    (h0 : 0 ≤ now) :
    (∀ tx, tx ∈ getPeriodTransactions txs Period.daily now ↔
      tx ∈ txs ∧ tx.date = now) ∧
    (dayOfWeekZ (now - dayOfWeekZ now) = 0 ∧ now - dayOfWeekZ now ≤ now ∧
      now < (now - dayOfWeekZ now) + 7 ∧
      (∀ tx, tx ∈ getPeriodTransactions txs Period.weekly now ↔
        tx ∈ txs ∧ now - dayOfWeekZ now ≤ tx.date)) ∧
    (civilOfDay (dayOfCivil (civilOfDay now).1 (civilOfDay now).2.1 1) =
        ((civilOfDay now).1, (civilOfDay now).2.1, 1) ∧
      dayOfCivil (civilOfDay now).1 (civilOfDay now).2.1 1 ≤ now ∧
      (∀ tx, tx ∈ getPeriodTransactions txs Period.monthly now ↔
        tx ∈ txs ∧ dayOfCivil (civilOfDay now).1 (civilOfDay now).2.1 1 ≤ tx.date)) ∧
    (∀ p tx, tx ∈ (getPeriodTransactions txs p now).filter
        (fun tx => tx.currencyCode = cc) ↔
      tx ∈ getPeriodTransactions txs p now ∧ tx.currencyCode = cc) := by
  obtain ⟨hrt, hy1, hm1, hm12, hd1, hd31, hdoy, hnx⟩ := civilOfDay_spec now h0
  refine ⟨?_, ⟨?_, ?_, ?_, ?_⟩, ⟨?_, ?_, ?_⟩, ?_⟩
  · intro tx
    simp [getPeriodTransactions, List.mem_filter]
  · unfold dayOfWeekZ
    omega
  · unfold dayOfWeekZ
    omega
  · unfold dayOfWeekZ
    omega
  · intro tx
    simp [getPeriodTransactions, List.mem_filter, dayOfWeekZ]
  · exact civilOfDay_dayOfCivil (civilOfDay now).1 (civilOfDay now).2.1 1
      hy1 hm1 hm12 (le_refl 1) (by omega) (fun hm => by have := hnx hm; omega)
  · have he1 : dayOfCivil (civilOfDay now).1 (civilOfDay now).2.1 1 =
        yearStart (civilOfDay now).1 +
          daysBeforeMonth (leapDays (civilOfDay now).1) (civilOfDay now).2.1 + (1 - 1) := rfl
    have he2 : dayOfCivil (civilOfDay now).1 (civilOfDay now).2.1 (civilOfDay now).2.2 =
        yearStart (civilOfDay now).1 +
          daysBeforeMonth (leapDays (civilOfDay now).1) (civilOfDay now).2.1 +
          ((civilOfDay now).2.2 - 1) := rfl
    omega
  · intro tx
    simp [getPeriodTransactions, List.mem_filter]
  · intro p tx
    simp [List.mem_filter]

/-- Witness for C6 at a concrete date (day 6, a Sunday). -/
theorem c6_period_filter_witness :
    (∀ tx, tx ∈ getPeriodTransactions [] Period.daily 6 ↔
      tx ∈ ([] : List Transaction) ∧ tx.date = 6) ∧
    (dayOfWeekZ (6 - dayOfWeekZ 6) = 0 ∧ 6 - dayOfWeekZ 6 ≤ 6 ∧
      (6 : Int) < (6 - dayOfWeekZ 6) + 7 ∧
      (∀ tx, tx ∈ getPeriodTransactions [] Period.weekly 6 ↔
        tx ∈ ([] : List Transaction) ∧ 6 - dayOfWeekZ 6 ≤ tx.date)) ∧
    (civilOfDay (dayOfCivil (civilOfDay 6).1 (civilOfDay 6).2.1 1) =
        ((civilOfDay 6).1, (civilOfDay 6).2.1, 1) ∧
      dayOfCivil (civilOfDay 6).1 (civilOfDay 6).2.1 1 ≤ 6 ∧
      (∀ tx, tx ∈ getPeriodTransactions [] Period.monthly 6 ↔
        tx ∈ ([] : List Transaction) ∧ dayOfCivil (civilOfDay 6).1 (civilOfDay 6).2.1 1 ≤ tx.date)) ∧
    (∀ p tx, tx ∈ (getPeriodTransactions [] p 6).filter
        (fun tx => tx.currencyCode = "USD") ↔
      tx ∈ getPeriodTransactions [] p 6 ∧ tx.currencyCode = "USD") :=
  c6_period_filter [] 6 "USD" (by decide)

/-- Every rate in the static table is nonzero. -/
theorem lookupRate_ne_zero (c : String) (r : ℚ) (h : lookupRate c = some r) : r ≠ 0 := by
  rw [lookupRate, hardcodedExchangeRates] at h
  by_cases h1 : c = "USD"
  · rw [List.find?_cons_of_pos _ (by simp [h1])] at h
    simp at h
    rw [← h]
    norm_num
  · rw [List.find?_cons_of_neg _ (by simp only [decide_eq_true_eq]; exact fun hh => h1 hh.symm)] at h
    by_cases h2 : c = "EUR"
    · rw [List.find?_cons_of_pos _ (by simp [h2])] at h
      simp at h
      rw [← h]
      norm_num
    · rw [List.find?_cons_of_neg _ (by simp only [decide_eq_true_eq]; exact fun hh => h2 hh.symm)] at h
      exact absurd h (Option.noConfusion)

/-- C7: for a positive amount and codes both present in the static rate
table the conversion returns `amount / rate[from] * rate[to]`; 100 USD to
EUR yields 90; and converting from a code to itself returns the amount
unchanged. -/
theorem c7_currency_conversion :
    (∀ amount : ℚ, 0 < amount → ∀ cf ct : String, ∀ rf rt : ℚ,
      lookupRate cf = some rf → lookupRate ct = some rt →
      handleConvert amount cf ct = Except.ok (amount / rf * rt)) ∧
    handleConvert 100 "USD" "EUR" = Except.ok 90 ∧
    (∀ amount : ℚ, 0 < amount → ∀ c : String,
      handleConvert amount c c = Except.ok amount) := by
  refine ⟨?_, ?_, ?_⟩
  · intro amount hpos cf ct rf rt hf ht
    rw [handleConvert, if_neg (not_le.mpr hpos)]
    by_cases hc : cf = ct
    · rw [if_pos hc]
      subst hc
      rw [hf] at ht
      have hrfrt : rf = rt := Option.some.inj ht
      have h0 : rf ≠ 0 := lookupRate_ne_zero cf rf hf
      subst hrfrt
      rw [div_mul_cancel₀ amount h0]
    · rw [if_neg hc, hf, ht]
  · have hf : lookupRate "USD" = some 1 := by rfl
    have ht : lookupRate "EUR" = some (9 / 10) := by rfl
    rw [handleConvert, if_neg (by norm_num), if_neg (by decide), hf, ht]
    norm_num
  · intro amount hpos c
    rw [handleConvert, if_neg (not_le.mpr hpos), if_pos rfl]

/-- Witness for C7 at a concrete conversion. -/
theorem c7_currency_conversion_witness :
    (0 : ℚ) < 100 ∧ lookupRate "USD" = some 1 ∧ lookupRate "EUR" = some (9 / 10) ∧
    handleConvert 100 "USD" "EUR" = Except.ok (100 / 1 * (9 / 10)) :=
  ⟨by norm_num, by rfl, by rfl,
    c7_currency_conversion.1 100 (by norm_num) "USD" "EUR" 1 (9 / 10) (by rfl) (by rfl)⟩

/-- C9: `categorizeTransaction` returns `Others` on every failure path — a
missing API key, a thrown call, a missing category field, or an empty
category — and the (nonempty) category otherwise; `getSpendingInsights`
returns its fixed fallback message on every failure path and the response
text otherwise.  Both are total functions: no failure escapes. -/
theorem c9_gemini_fallbacks :
    (∀ resp : Except Unit (Option String), categorizeTransaction false resp = "Others") ∧
    categorizeTransaction true (Except.error ()) = "Others" ∧
    categorizeTransaction true (Except.ok none) = "Others" ∧
    categorizeTransaction true (Except.ok (some "")) = "Others" ∧
    (∀ c : String, c ≠ "" → categorizeTransaction true (Except.ok (some c)) = c) ∧
    (∀ (key : Bool) (resp : Except Unit (Option String)),
      categorizeTransaction key resp = "Others" ∨
      ∃ c : String, c ≠ "" ∧ resp = Except.ok (some c) ∧
        categorizeTransaction key resp = c) ∧
    (∀ resp : Except Unit String, getSpendingInsights false resp =
      "Could not retrieve spending insights at this time. Please try again later.") ∧
    getSpendingInsights true (Except.error ()) =
      "Could not retrieve spending insights at this time. Please try again later." ∧
    (∀ t : String, getSpendingInsights true (Except.ok t) = t) := by
  refine ⟨fun resp => rfl, rfl, rfl, rfl, ?_, ?_, fun resp => rfl, rfl, fun t => rfl⟩
  · intro c hc
    rw [categorizeTransaction]
    simp [hc]
  · intro key resp
    cases key with
    | false => exact Or.inl rfl
    | true =>
        cases resp with
        | error e => exact Or.inl rfl
        | ok o =>
            cases o with
            | none => exact Or.inl rfl
            | some c =>
                by_cases hc : c = ""
                · subst hc
                  exact Or.inl rfl
                · refine Or.inr ⟨c, hc, rfl, ?_⟩
                  rw [categorizeTransaction]
                  simp [hc]

/-- Witness for C9's nonempty-category case at a concrete input. -/
theorem c9_gemini_fallbacks_witness :
    ("Food" : String) ≠ "" ∧
    categorizeTransaction true (Except.ok (some "Food")) = "Food" :=
  ⟨by decide, c9_gemini_fallbacks.2.2.2.2.1 "Food" (by decide)⟩

/-- The merge comparator is transitive. -/
theorem mergeLe_trans (a b c : Transaction) (h1 : mergeLe a b = true)
    (h2 : mergeLe b c = true) : mergeLe a c = true := by
  simp only [mergeLe, decide_eq_true_eq] at h1 h2 ⊢
  rcases h1 with h1 | ⟨h1, h1'⟩ <;> rcases h2 with h2 | ⟨h2, h2'⟩
  · exact Or.inl (lt_trans h1 h2)
  · exact Or.inl (h2 ▸ h1)
  · exact Or.inl (h1 ▸ h2)
  · exact Or.inr ⟨h1.trans h2, le_trans h1' h2'⟩

/-- The merge comparator is total. -/
theorem mergeLe_total (a b : Transaction) : (mergeLe a b || mergeLe b a) = true := by
  simp only [mergeLe, Bool.or_eq_true, decide_eq_true_eq]
  rcases lt_trichotomy a.date b.date with h | h | h
  · exact Or.inl (Or.inl h)
  · rcases le_total a.id b.id with hi | hi
    · exact Or.inl (Or.inr ⟨h, hi⟩)
    · exact Or.inr (Or.inr ⟨h.symm, hi⟩)
  · exact Or.inr (Or.inl h)

/-- C10: the merge keeps exactly the previous transactions plus the new
ones whose id is not already present, the result is sorted by date
ascending with ties broken by id, and (when the previous and the new ids
are each duplicate-free) the merged list has no duplicate ids. -/
theorem c10_merge_sorted_nodup (prev new : List Transaction)
    (hprev : (prev.map Transaction.id).Nodup)
    (hnew : (new.map Transaction.id).Nodup) :
    (mergeNewTransactions prev new).Perm
      (prev ++ new.filter (fun ntx => ! prev.any (fun ptx => ptx.id = ntx.id))) ∧
    (mergeNewTransactions prev new).Pairwise
      (fun a b => a.date < b.date ∨ (a.date = b.date ∧ a.id ≤ b.id)) ∧
    ((mergeNewTransactions prev new).map Transaction.id).Nodup := by
  have hdef : mergeNewTransactions prev new =
      (prev ++ new.filter (fun ntx =>
        ! prev.any (fun ptx => ptx.id = ntx.id))).mergeSort mergeLe := rfl
  rw [hdef]
  refine ⟨List.mergeSort_perm _ mergeLe, ?_, ?_⟩
  · exact (List.sorted_mergeSort mergeLe_trans mergeLe_total _).imp
      (fun h => of_decide_eq_true h)
  · have hperm := (List.mergeSort_perm
      (prev ++ new.filter (fun ntx => ! prev.any (fun ptx => ptx.id = ntx.id)))
      mergeLe).map Transaction.id
    rw [hperm.nodup_iff, List.map_append]
    refine List.Nodup.append hprev
      (hnew.sublist ((List.filter_sublist new).map Transaction.id)) ?_
    intro a ha1 ha2
    obtain ⟨x, hx, hxa⟩ := List.mem_map.mp ha2
    obtain ⟨hxnew, hxkeep⟩ := List.mem_filter.mp hx
    obtain ⟨p, hp, hpa⟩ := List.mem_map.mp ha1
    rw [Bool.not_eq_true', List.any_eq_false] at hxkeep
    have hne : ¬ p.id = x.id := by simpa using hxkeep p hp
    exact hne (hpa.trans hxa.symm)

/-- Witness for C10 at a concrete input. -/
theorem c10_merge_sorted_nodup_witness :
    (([sampleTxA].map Transaction.id).Nodup ∧ ([sampleTxB].map Transaction.id).Nodup) ∧
    ((mergeNewTransactions [sampleTxA] [sampleTxB]).Perm
      ([sampleTxA] ++ [sampleTxB].filter (fun ntx =>
        ! [sampleTxA].any (fun ptx => ptx.id = ntx.id))) ∧
    (mergeNewTransactions [sampleTxA] [sampleTxB]).Pairwise
      (fun a b => a.date < b.date ∨ (a.date = b.date ∧ a.id ≤ b.id)) ∧
    ((mergeNewTransactions [sampleTxA] [sampleTxB]).map Transaction.id).Nodup) :=
  ⟨⟨by decide, by decide⟩,
    c10_merge_sorted_nodup [sampleTxA] [sampleTxB] (by decide) (by decide)⟩
